import Mathlib

/-!
Verification of the EPUB metadata-editing and platform-watermarking pipeline
(`config.py`, `modules/mhtml_parser.py`, `modules/opf_editor.py`,
`modules/watermark_manager.py`, `modules/integrity_checker.py`, `main.py`).

The Python sources are shallowly embedded: strings become `List Char`,
bytes become `List Nat`, the concrete regular expressions used by the code
are embedded as executable matchers with Python's leftmost / greedy /
backtracking semantics for those fixed patterns, exceptions become
`Except`, and `random.sample` becomes an explicit relation over index
choices.  Case-insensitive matching (`re.IGNORECASE`) is modelled by
ASCII lowercasing, and the `\d` class by ASCII digits; the inputs named
by the claims only exercise those ranges.
-/

namespace Plataformas

/-- ASCII lowercasing, modelling Python's case folding on the tag and
attribute literals that the code matches case-insensitively. -/
def pyLower (c : Char) : Char :=
  if 'A' ≤ c ∧ c ≤ 'Z' then Char.ofNat (c.toNat + 32) else c

/-- Case-insensitive character comparison (for `re.IGNORECASE` literals). -/
def ciEq (a b : Char) : Bool := pyLower a == pyLower b

/-- Case-insensitive literal prefix test. -/
def ciPrefix : List Char → List Char → Bool
  | [], _ => true
  | _ :: _, [] => false
  | a :: as, b :: bs => ciEq a b && ciPrefix as bs

/-- Python's `\s` character class for `str` patterns (Unicode whitespace,
including the ASCII controls 0x1c-0x1f and U+0085 that `str.isspace`
accepts). -/
def isPySpace (c : Char) : Bool :=
  let n := c.toNat
  (decide (9 ≤ n) && decide (n ≤ 13)) || (decide (28 ≤ n) && decide (n ≤ 31)) ||
  (n == 32) || (n == 0x85) || (n == 0xa0) || (n == 0x1680) ||
  (decide (0x2000 ≤ n) && decide (n ≤ 0x200a)) || (n == 0x2028) || (n == 0x2029) ||
  (n == 0x202f) || (n == 0x205f) || (n == 0x3000)

/-- Length of the maximal prefix of `s` whose characters satisfy `p`
(the greedy extent of a `p*` regex atom). -/
def runLen (p : Char → Bool) : List Char → Nat
  | [] => 0
  | c :: cs => if p c then runLen p cs + 1 else 0

/-- Drop leading Python whitespace (one side of `str.strip`). -/
def dropWhileSpace : List Char → List Char
  | [] => []
  | c :: cs => if isPySpace c then dropWhileSpace cs else c :: cs

/-- Python `str.strip()`. -/
def pyStrip (s : List Char) : List Char :=
  (dropWhileSpace ((dropWhileSpace s).reverse)).reverse

/-- Python `str.split(sep, 1)` restricted to the case split on the first
occurrence: returns `some (before, after)` when `sep` occurs in `s`,
splitting at its leftmost occurrence, and `none` otherwise. -/
def splitOnceSep (sep : List Char) : List Char → Option (List Char × List Char)
  | [] => none
  | c :: cs =>
      if sep.isPrefixOf (c :: cs) then some ([], (c :: cs).drop sep.length)
      else
        match splitOnceSep sep cs with
        | some (a, b) => some (c :: a, b)
        | none => none

/-! ### Static configuration (`config.py`) -/

/-- `PLATFORM_MARKS`: platform identifier to watermark glyph, in the
source's dict order. -/
def PLATFORM_MARKS : List (String × Char) :=
  [("amazon", '▲'), ("apple", '▼'), ("binpar", '◆'), ("google", '●'), ("vitalsource", '■')]

/-- `PLATFORMS = list(PLATFORM_MARKS.keys())`. -/
def PLATFORMS : List String := PLATFORM_MARKS.map Prod.fst

/-- The five watermark glyphs in processing order. -/
def markGlyphs : List Char := PLATFORM_MARKS.map Prod.snd

/-- `NUM_FILES_TO_MARK`. -/
def NUM_FILES_TO_MARK : Nat := 3

/-- Opening part of `MARK_TEMPLATE` (before the glyph slot). -/
def markTemplateOpen : List Char := "<p style=\"text-align: center;\">".toList

/-- `MARK_TEMPLATE.format(mark=mark)`: the marker block inserted by
`insert_watermark`. -/
def mark_html (mark : Char) : List Char := markTemplateOpen ++ [mark] ++ "</p>".toList

/-! ### `parse_subject_from_classification` (`mhtml_parser.py`) -/

/-- The separator `" - "` used by the classification fallback. -/
def classificationSep : List Char := " - ".toList

/-- `parse_subject_from_classification`: split on the first `" - "`; when
two parts result return the stripped second part, prefixed by
`"Psicologia > "` when the whole string starts with `"33"`; otherwise
return the input unchanged (the empty string is returned as itself). -/
def parse_subject_from_classification (classification : List Char) : List Char :=
  if classification = [] then []
  else
    match splitOnceSep classificationSep classification with
    | some (_, rest) =>
        let subject := pyStrip rest
        if "33".toList.isPrefixOf classification then "Psicologia > ".toList ++ subject
        else subject
    | none => classification

/-! Helper lemmas about `splitOnceSep`. -/

theorem splitOnceSep_eq_append (sep s p q : List Char)
    (h : splitOnceSep sep s = some (p, q)) : s = p ++ sep ++ q := by
  induction s generalizing p q with
  | nil => simp [splitOnceSep] at h
  | cons c cs ih =>
      rw [splitOnceSep] at h
      by_cases hp : sep.isPrefixOf (c :: cs)
      · rw [if_pos hp] at h
        obtain ⟨t, ht⟩ := (List.isPrefixOf_iff_prefix.mp hp)
        injection h with h1
        injection h1 with hp1 hq1
        subst hp1
        simp only [List.nil_append]
        rw [← ht, ← hq1, ← ht]
        simp
      · rw [if_neg hp] at h
        cases hsp : splitOnceSep sep cs with
        | none => rw [hsp] at h; exact absurd h (by simp)
        | some ab =>
            obtain ⟨a, b⟩ := ab
            rw [hsp] at h
            injection h with h1
            injection h1 with hp1 hq1
            have hcs := ih a b hsp
            rw [← hp1, ← hq1, hcs]
            simp

theorem splitOnceSep_leftmost (sep s p q : List Char)
    (h : splitOnceSep sep s = some (p, q)) :
    ∀ p' q', s = p' ++ sep ++ q' → p.length ≤ p'.length := by
  induction s generalizing p q with
  | nil => simp [splitOnceSep] at h
  | cons c cs ih =>
      rw [splitOnceSep] at h
      by_cases hp : sep.isPrefixOf (c :: cs)
      · rw [if_pos hp] at h
        injection h with h1
        injection h1 with hp1 _
        subst hp1
        intro p' q' _
        simp
      · rw [if_neg hp] at h
        cases hsp : splitOnceSep sep cs with
        | none => rw [hsp] at h; exact absurd h (by simp)
        | some ab =>
            obtain ⟨a, b⟩ := ab
            rw [hsp] at h
            injection h with h1
            injection h1 with hp1 hq1
            intro p' q' hs
            cases p' with
            | nil =>
                exfalso
                apply hp
                apply List.isPrefixOf_iff_prefix.mpr
                exact ⟨q', by simpa using hs.symm⟩
            | cons c' p'' =>
                subst hp1
                simp only [List.length_cons, Nat.succ_le_succ_iff]
                have hcs : cs = p'' ++ sep ++ q' := by
                  simpa using congrArg List.tail hs
                exact ih a b hsp p'' q' hcs

/-- Starting with `"33"` is decided by the code on the whole classification
string, which coincides with the code segment (the part before `" - "`). -/
theorem startsWith33_of_split (p q : List Char) :
    "33".toList.isPrefixOf (p ++ classificationSep ++ q) = "33".toList.isPrefixOf p := by
  match p with
  | [] => simp [classificationSep, List.isPrefixOf]
  | [c] =>
      simp only [List.cons_append, List.nil_append, List.isPrefixOf, classificationSep]
      cases h : c == '3' <;> simp [List.isPrefixOf]
  | c1 :: c2 :: rest =>
      simp [List.isPrefixOf]

/-- C9. The classification-to-subject fallback splits on the first `" - "`;
with two parts it returns the trimmed second part, prefixed by
`"Psicologia > "` exactly when the code segment starts with `"33"`;
otherwise (no separator) the classification is returned unmodified.  The
two example inputs behave as the specification states. -/
theorem C9_classification_fallback :
    (∀ s p q : List Char, splitOnceSep classificationSep s = some (p, q) →
      s = p ++ classificationSep ++ q ∧
      (∀ p' q' : List Char, s = p' ++ classificationSep ++ q' → p.length ≤ p'.length) ∧
      parse_subject_from_classification s =
        (if "33".toList.isPrefixOf p then "Psicologia > ".toList else []) ++ pyStrip q) ∧
    (∀ s : List Char, splitOnceSep classificationSep s = none →
      parse_subject_from_classification s = s) ∧
    parse_subject_from_classification "33.01.09 - Terapia Cognitivo-Comportamental".toList =
      "Psicologia > Terapia Cognitivo-Comportamental".toList ∧
    parse_subject_from_classification "12.00.00 - Outro Assunto".toList =
      "Outro Assunto".toList := by
  refine ⟨?_, ?_, by decide, by decide⟩
  · intro s p q h
    refine ⟨splitOnceSep_eq_append _ _ _ _ h, splitOnceSep_leftmost _ _ _ _ h, ?_⟩
    have hs : s = p ++ classificationSep ++ q := splitOnceSep_eq_append _ _ _ _ h
    have hne : s ≠ [] := by
      rw [hs]; simp [classificationSep]
    rw [parse_subject_from_classification, if_neg hne, h]
    rw [hs, startsWith33_of_split]
    cases "33".toList.isPrefixOf p <;> simp
  · intro s h
    by_cases hs : s = []
    · subst hs; rfl
    · rw [parse_subject_from_classification, if_neg hs, h]

/-- Witness for C9: the separator hypothesis discharged on a concrete input. -/
theorem C9_classification_fallback_witness :
    parse_subject_from_classification "12.00.00 - Outro Assunto".toList =
      (if "33".toList.isPrefixOf "12.00.00".toList then "Psicologia > ".toList else []) ++
        pyStrip "Outro Assunto".toList := by
  have h := (C9_classification_fallback.1 "12.00.00 - Outro Assunto".toList
    "12.00.00".toList "Outro Assunto".toList (by decide)).2.2
  simpa [classificationSep] using h

/-! ### Eligibility filtering (`watermark_manager.find_eligible_files`) -/

/-- `Path.glob("*.xhtml")` membership: the name ends in `.xhtml` and is not
a hidden file (glob's `*` does not match a leading dot). -/
def globXhtml (name : List Char) : Bool :=
  ".xhtml".toList.isSuffixOf name &&
    (match name with
     | [] => false
     | c :: _ => c != '.')

/-- Python `$` anchor: end of string, or just before a final newline. -/
def endAnchor (s : List Char) : Bool := s == ([] : List Char) || s == ['\n']

/-- `re.match(prefix + r"\d+\.xhtml$", name)`: the shared shape of the
eligibility pattern (`cap_`) and the exclusion patterns (`parte_`,
`secao_`).  `\d+` is greedy and, since no digit is a dot, backtracking
never helps, so the maximal digit run is the match. -/
def reMatchNumbered (pre : List Char) (name : List Char) : Bool :=
  pre.isPrefixOf name &&
    (let rest := name.drop pre.length
     let d := runLen Char.isDigit rest
     decide (0 < d) && ".xhtml".toList.isPrefixOf (rest.drop d) && endAnchor ((rest.drop d).drop 6))

/-- `re.match(ELIGIBLE_FILE_PATTERN, name)` (`cap_\d+\.xhtml$`). -/
def eligiblePatternMatch (name : List Char) : Bool := reMatchNumbered "cap_".toList name

/-- Match against any of `EXCLUDED_FILE_PATTERNS`. -/
def excludedPatternsMatch (name : List Char) : Bool :=
  reMatchNumbered "parte_".toList name || reMatchNumbered "secao_".toList name

/-- Python string comparison (lexicographic by code point, shorter prefix
first), as used by `sorted`. -/
def lexLe : List Char → List Char → Bool
  | [], _ => true
  | _ :: _, [] => false
  | x :: xs, y :: ys => if x < y then true else if y < x then false else lexLe xs ys

/-- The ordering relation of Python `sorted` on strings. -/
def lexR (a b : List Char) : Prop := lexLe a b = true

instance : DecidableRel lexR := fun a b => inferInstanceAs (Decidable (lexLe a b = true))

theorem lexLe_total : ∀ a b : List Char, lexLe a b = true ∨ lexLe b a = true
  | [], _ => Or.inl rfl
  | _ :: _, [] => Or.inr rfl
  | x :: xs, y :: ys => by
      rcases lt_trichotomy x y with h | h | h
      · left; simp [lexLe, h]
      · subst h
        rcases lexLe_total xs ys with h2 | h2
        · left; simp [lexLe, lt_irrefl, h2]
        · right; simp [lexLe, lt_irrefl, h2]
      · right; simp [lexLe, h]

theorem lexLe_trans : ∀ a b c : List Char,
    lexLe a b = true → lexLe b c = true → lexLe a c = true
  | [], _, _, _, _ => rfl
  | _ :: _, [], _, h, _ => by simp [lexLe] at h
  | _ :: _, _ :: _, [], _, h2 => by simp [lexLe] at h2
  | x :: xs, y :: ys, z :: zs, h1, h2 => by
      rw [lexLe] at h1 h2 ⊢
      by_cases hxy : x < y
      · by_cases hyz : y < z
        · simp [lt_trans hxy hyz]
        · by_cases hzy : z < y
          · simp [hyz, hzy] at h2
          · have hyzeq : y = z := le_antisymm (not_lt.mp hzy) (not_lt.mp hyz)
            subst hyzeq
            simp [hxy]
      · by_cases hyx : y < x
        · simp [hxy, hyx] at h1
        · have hxyeq : x = y := le_antisymm (not_lt.mp hyx) (not_lt.mp hxy)
          subst hxyeq
          have h1' : lexLe xs ys = true := by simpa [lt_irrefl] using h1
          by_cases hyz : x < z
          · simp [hyz]
          · by_cases hzy : z < x
            · simp [hyz, hzy] at h2
            · have hxzeq : x = z := le_antisymm (not_lt.mp hzy) (not_lt.mp hyz)
              subst hxzeq
              have h2' : lexLe ys zs = true := by simpa [lt_irrefl] using h2
              simpa [lt_irrefl] using lexLe_trans xs ys zs h1' h2'

instance : IsTotal (List Char) lexR := ⟨fun a b => lexLe_total a b⟩

instance : IsTrans (List Char) lexR := ⟨fun a b c => lexLe_trans a b c⟩

/-- `find_eligible_files`: glob the content directory for `*.xhtml`, keep
names matching the eligibility pattern and no exclusion pattern, and
return them sorted. -/
def find_eligible_files (files : List (List Char)) : List (List Char) :=
  List.insertionSort lexR
    (files.filter (fun name =>
      globXhtml name && eligiblePatternMatch name && !excludedPatternsMatch name))

/-- C7. `find_eligible_files` returns exactly the content-document
(`*.xhtml`, non-hidden) filenames that match the chapter inclusion
pattern and no exclusion pattern, sorted; on the five example files it
returns exactly the two `cap_*` files. -/
theorem C7_eligibility_filtering :
    (∀ (files : List (List Char)) (f : List Char),
      (f ∈ find_eligible_files files ↔
        f ∈ files ∧ globXhtml f = true ∧ eligiblePatternMatch f = true ∧
          excludedPatternsMatch f = false) ∧
      List.Sorted lexR (find_eligible_files files)) ∧
    find_eligible_files
      ["cap_001.xhtml".toList, "cap_002.xhtml".toList, "parte_01.xhtml".toList,
        "secao_01.xhtml".toList, "intro.xhtml".toList] =
      ["cap_001.xhtml".toList, "cap_002.xhtml".toList] := by
  refine ⟨fun files f => ⟨?_, List.sorted_insertionSort lexR _⟩, by decide⟩
  rw [find_eligible_files]
  rw [List.mem_insertionSort, List.mem_filter]
  simp only [Bool.and_eq_true, Bool.not_eq_true']
  tauto

/-- C10. Under the shipped configuration the exclusion check is vacuous:
an eligibility match forces the name to start with `cap_`, while each
exclusion pattern forces `parte_`/`secao_`; hence `find_eligible_files`
is extensionally the sort of the filter by glob plus inclusion pattern
alone. -/
theorem C10_exclusions_vacuous :
    (∀ f : List Char, eligiblePatternMatch f = true → excludedPatternsMatch f = false) ∧
    (∀ files : List (List Char),
      find_eligible_files files =
        List.insertionSort lexR
          (files.filter (fun name => globXhtml name && eligiblePatternMatch name))) := by
  have key : ∀ f : List Char, eligiblePatternMatch f = true → excludedPatternsMatch f = false := by
    intro f h
    rw [eligiblePatternMatch, reMatchNumbered, Bool.and_eq_true] at h
    obtain ⟨hpre, -⟩ := h
    match f with
    | [] => simp [List.isPrefixOf] at hpre
    | c :: rest =>
        simp only [List.isPrefixOf, Bool.and_eq_true, beq_iff_eq] at hpre
        obtain ⟨hc, -⟩ := hpre
        subst hc
        simp [excludedPatternsMatch, reMatchNumbered, List.isPrefixOf]
  refine ⟨key, fun files => ?_⟩
  rw [find_eligible_files]
  congr 1
  apply List.filter_congr
  intro f _
  cases he : eligiblePatternMatch f
  · simp
  · simp [key f he]

/-- Witness for C10: the implication discharged on a concrete eligible name. -/
theorem C10_exclusions_vacuous_witness :
    excludedPatternsMatch "cap_001.xhtml".toList = false :=
  C10_exclusions_vacuous.1 "cap_001.xhtml".toList (by decide)

/-! ### Sampling (`watermark_manager.select_random_files`) -/

/-- Possible outcomes of `random.sample(pop, k)`: `k` distinct positions
of `pop`, in any order (values at distinct positions may coincide when
the population has duplicates). -/
def samplePossible (pop : List (List Char)) (k : Nat) (out : List (List Char)) : Prop :=
  ∃ idxs : List (Fin pop.length), idxs.Nodup ∧ idxs.length = k ∧ out = idxs.map pop.get

/-- `select_random_files` as a relation over its random choice: when the
eligible list has at most `numFiles` entries it is returned whole,
otherwise any `random.sample` outcome of size `numFiles` is possible. -/
def select_random_files (eligible out : List (List Char)) (numFiles : Nat) : Prop :=
  if eligible.length ≤ numFiles then out = eligible
  else samplePossible eligible numFiles out

/-- C8 counterexample: on a target list with a repeated entry, the
short-list branch returns the list as is, which contains duplicates. -/
theorem C8_duplicates_counterexample :
    select_random_files ["a".toList, "a".toList] ["a".toList, "a".toList] NUM_FILES_TO_MARK ∧
    ¬ (["a".toList, "a".toList] : List (List Char)).Nodup := by
  constructor
  · rw [select_random_files]
    simp [NUM_FILES_TO_MARK]
  · simp

/-- C8 (amended). `sample(targets, 3)` returns at most 3 items, returns
exactly the targets when they number at most 3, and draws only from the
targets; when the targets are pairwise distinct the result has no
duplicates. -/
theorem C8_sampling_bound (eligible out : List (List Char))
    (h : select_random_files eligible out NUM_FILES_TO_MARK) :
    out.length ≤ NUM_FILES_TO_MARK ∧
    (eligible.length ≤ NUM_FILES_TO_MARK → out = eligible) ∧
    (∀ x ∈ out, x ∈ eligible) ∧
    (eligible.Nodup → out.Nodup) := by
  rw [select_random_files] at h
  by_cases hlen : eligible.length ≤ NUM_FILES_TO_MARK
  · rw [if_pos hlen] at h
    subst h
    exact ⟨hlen, fun _ => rfl, fun x hx => hx, fun hn => hn⟩
  · rw [if_neg hlen] at h
    obtain ⟨idxs, hnodup, hklen, hout⟩ := h
    subst hout
    refine ⟨by simp [hklen], fun hc => absurd hc hlen, ?_, ?_⟩
    · intro x hx
      obtain ⟨i, _, hi⟩ := List.mem_map.mp hx
      exact hi ▸ eligible.get_mem i.1 i.2
    · intro hn
      exact List.Nodup.map (List.nodup_iff_injective_get.mp hn) hnodup

/-- Witness for C8: the sampling relation discharged on a concrete call. -/
theorem C8_sampling_bound_witness :
    (["a".toList, "b".toList] : List (List Char)).length ≤ NUM_FILES_TO_MARK :=
  (C8_sampling_bound ["a".toList, "b".toList] ["a".toList, "b".toList]
    (by rw [select_random_files]; simp [NUM_FILES_TO_MARK])).1

/-! ### Marker insertion (`watermark_manager.insert_watermark`) -/

/-- The literal `</div>`. -/
def divPat : List Char := "</div>".toList

/-- The literal `</body>`. -/
def bodyPat : List Char := "</body>".toList

/-- The pattern `(</div>\s*)(</body>)` matches at the current position:
when it does, return the offset just past the whitespace run (the point
where the replacement inserts the marker). -/
def divBodyAnchorAt (s : List Char) : Option Nat :=
  if ciPrefix divPat s then
    let w := runLen isPySpace (s.drop 6)
    if ciPrefix bodyPat (s.drop (6 + w)) then some (6 + w) else none
  else none

/-- Leftmost match of `(</div>\s*)(</body>)` (as `re.search`/`re.sub`
find it); returns the absolute insertion index between the whitespace
and `</body>`. -/
def findDivBody : List Char → Option Nat
  | [] => none
  | c :: cs =>
      match divBodyAnchorAt (c :: cs) with
      | some j => some j
      | none =>
          match findDivBody cs with
          | some j => some (j + 1)
          | none => none

/-- Leftmost match of `(</body>)` (case-insensitive). -/
def findBody : List Char → Option Nat
  | [] => none
  | c :: cs =>
      if ciPrefix bodyPat (c :: cs) then some 0
      else
        match findBody cs with
        | some i => some (i + 1)
        | none => none

/-- `insert_watermark`: substitute the first `(</div>\s*)(</body>)` match
with group1, marker, newline, group2; otherwise insert the marker and a
newline before the first `</body>`; report whether the text changed. -/
def insert_watermark (content : List Char) (mark : Char) : List Char × Bool :=
  let mh := mark_html mark
  let newContent :=
    match findDivBody content with
    | some j => content.take j ++ mh ++ ['\n'] ++ content.drop j
    | none =>
        match findBody content with
        | some i => content.take i ++ mh ++ ['\n'] ++ content.drop i
        | none => content
  (newContent, decide (newContent ≠ content))

/-- A div-body anchor at position `i`: `</div>`, then whitespace, then
`</body>`, all case-insensitive. -/
def DivBodyAt (s : List Char) (i : Nat) : Prop :=
  ciPrefix divPat (s.drop i) = true ∧
  ciPrefix bodyPat (s.drop (i + 6 + runLen isPySpace (s.drop (i + 6)))) = true

/-- A `</body>` (case-insensitive) at position `i`. -/
def BodyAt (s : List Char) (i : Nat) : Prop := ciPrefix bodyPat (s.drop i) = true

instance (s : List Char) (i : Nat) : Decidable (DivBodyAt s i) := by
  rw [DivBodyAt]; infer_instance

instance (s : List Char) (i : Nat) : Decidable (BodyAt s i) := by
  rw [BodyAt]; infer_instance

theorem divBodyAnchorAt_eq_some (s : List Char) (j : Nat) :
    divBodyAnchorAt s = some j ↔
      DivBodyAt s 0 ∧ j = 6 + runLen isPySpace (s.drop 6) := by
  have h0 : DivBodyAt s 0 ↔
      (ciPrefix divPat s = true ∧
        ciPrefix bodyPat (s.drop (6 + runLen isPySpace (s.drop 6))) = true) := by
    rw [DivBodyAt]
    simp
  rw [divBodyAnchorAt, h0]
  by_cases h1 : ciPrefix divPat s
  · rw [if_pos h1]
    by_cases h2 : ciPrefix bodyPat (s.drop (6 + runLen isPySpace (s.drop 6)))
    · rw [if_pos h2]
      simp [h1, h2, eq_comm]
    · rw [if_neg h2]
      simp [h2]
  · rw [if_neg h1]
    simp [h1]

theorem divBodyAt_succ (c : Char) (cs : List Char) (i : Nat) :
    DivBodyAt (c :: cs) (i + 1) ↔ DivBodyAt cs i := by
  rw [DivBodyAt, DivBodyAt]
  have h1 : (c :: cs).drop (i + 1) = cs.drop i := by simp
  have h2 : (c :: cs).drop (i + 1 + 6) = cs.drop (i + 6) := by
    rw [show i + 1 + 6 = (i + 6) + 1 by omega]
    simp
  rw [h1, h2]
  have h3 : (c :: cs).drop (i + 1 + 6 + runLen isPySpace (cs.drop (i + 6))) =
      cs.drop (i + 6 + runLen isPySpace (cs.drop (i + 6))) := by
    rw [show i + 1 + 6 + runLen isPySpace (cs.drop (i + 6)) =
      (i + 6 + runLen isPySpace (cs.drop (i + 6))) + 1 by omega]
    simp
  rw [h3]

theorem findDivBody_spec : ∀ (s : List Char) (j : Nat),
    findDivBody s = some j ↔
      ∃ i, DivBodyAt s i ∧ (∀ k < i, ¬ DivBodyAt s k) ∧
        j = i + 6 + runLen isPySpace (s.drop (i + 6))
  | [], j => by
      constructor
      · intro h; simp [findDivBody] at h
      · rintro ⟨i, ⟨hdiv, -⟩, -, -⟩
        rw [List.drop_nil] at hdiv
        simp [divPat, ciPrefix] at hdiv
  | c :: cs, j => by
      rw [findDivBody]
      cases hA : divBodyAnchorAt (c :: cs) with
      | some j0 =>
          obtain ⟨hAt, hj0⟩ := (divBodyAnchorAt_eq_some _ _).mp hA
          simp only [Option.some_inj]
          constructor
          · intro h
            exact ⟨0, hAt, by omega, by subst h; simpa using hj0⟩
          · rintro ⟨i, hi, hmin, hjeq⟩
            cases i with
            | zero => rw [hjeq]; simpa using hj0
            | succ n => exact absurd hAt (hmin 0 (Nat.succ_pos n))
      | none =>
          have hno : ¬ DivBodyAt (c :: cs) 0 := by
            intro hcontra
            have hsome := (divBodyAnchorAt_eq_some (c :: cs)
              (6 + runLen isPySpace ((c :: cs).drop 6))).mpr ⟨hcontra, rfl⟩
            rw [hA] at hsome
            exact absurd hsome (by simp)
          cases hR : findDivBody cs with
          | some j1 =>
              obtain ⟨i1, hAt1, hmin1, hj1⟩ := (findDivBody_spec cs j1).mp hR
              simp only [Option.some_inj]
              constructor
              · intro h
                refine ⟨i1 + 1, (divBodyAt_succ c cs i1).mpr hAt1, ?_, ?_⟩
                · intro k hk
                  cases k with
                  | zero => exact hno
                  | succ m =>
                      rw [divBodyAt_succ]
                      exact hmin1 m (by omega)
                · subst h
                  rw [hj1]
                  have : (c :: cs).drop (i1 + 1 + 6) = cs.drop (i1 + 6) := by
                    rw [show i1 + 1 + 6 = (i1 + 6) + 1 by omega]; simp
                  rw [this]
                  omega
              · rintro ⟨i, hi, hmin, hjeq⟩
                cases i with
                | zero => exact absurd hi hno
                | succ n =>
                    have hn : DivBodyAt cs n := (divBodyAt_succ c cs n).mp hi
                    have hminn : ∀ k < n, ¬ DivBodyAt cs k := by
                      intro k hk hc
                      exact hmin (k + 1) (by omega) ((divBodyAt_succ c cs k).mpr hc)
                    have : n = i1 := by
                      by_contra hne
                      rcases Nat.lt_or_ge n i1 with hlt | hge
                      · exact hmin1 n hlt hn
                      · exact hminn i1 (by omega) hAt1
                    subst this
                    rw [hjeq, hj1]
                    have : (c :: cs).drop (n + 1 + 6) = cs.drop (n + 6) := by
                      rw [show n + 1 + 6 = (n + 6) + 1 by omega]; simp
                    rw [this]
                    omega
          | none =>
              constructor
              · intro h; exact absurd h (by simp)
              · rintro ⟨i, hi, -, -⟩
                exfalso
                cases i with
                | zero => exact hno hi
                | succ n =>
                  have hn : DivBodyAt cs n := (divBodyAt_succ c cs n).mp hi
                  have hex : ∃ m, DivBodyAt cs m := ⟨n, hn⟩
                  have hsome := (findDivBody_spec cs
                    (Nat.find hex + 6 + runLen isPySpace (cs.drop (Nat.find hex + 6)))).mpr
                    ⟨Nat.find hex, Nat.find_spec hex,
                      fun k hk => Nat.find_min hex hk, rfl⟩
                  rw [hR] at hsome
                  exact absurd hsome (by simp)

theorem bodyAt_succ (c : Char) (cs : List Char) (i : Nat) :
    BodyAt (c :: cs) (i + 1) ↔ BodyAt cs i := by
  rw [BodyAt, BodyAt]
  simp

theorem findBody_spec : ∀ (s : List Char) (i : Nat),
    findBody s = some i ↔ BodyAt s i ∧ ∀ k < i, ¬ BodyAt s k
  | [], i => by
      constructor
      · intro h; simp [findBody] at h
      · rintro ⟨hb, -⟩
        rw [BodyAt] at hb
        simp [bodyPat, ciPrefix] at hb
  | c :: cs, i => by
      rw [findBody]
      have hB0 : BodyAt (c :: cs) 0 ↔ ciPrefix bodyPat (c :: cs) = true := by
        rw [BodyAt]; simp
      by_cases h0 : ciPrefix bodyPat (c :: cs) = true
      · rw [if_pos h0]
        constructor
        · intro h
          injection h with h
          subst h
          exact ⟨hB0.mpr h0, by omega⟩
        · rintro ⟨hb, hmin⟩
          cases i with
          | zero => rfl
          | succ n => exact absurd (hB0.mpr h0) (hmin 0 (Nat.succ_pos n))
      · rw [if_neg h0]
        have hno : ¬ BodyAt (c :: cs) 0 := fun hcontra => h0 (hB0.mp hcontra)
        cases hR : findBody cs with
        | some i1 =>
            obtain ⟨hb1, hmin1⟩ := (findBody_spec cs i1).mp hR
            simp only [Option.some_inj]
            constructor
            · intro h
              subst h
              refine ⟨(bodyAt_succ c cs i1).mpr hb1, ?_⟩
              intro k hk
              cases k with
              | zero => exact hno
              | succ m =>
                  rw [bodyAt_succ]
                  exact hmin1 m (by omega)
            · rintro ⟨hb, hmin⟩
              cases i with
              | zero => exact absurd hb hno
              | succ n =>
                  have hn : BodyAt cs n := (bodyAt_succ c cs n).mp hb
                  have hminn : ∀ k < n, ¬ BodyAt cs k := by
                    intro k hk hc
                    exact hmin (k + 1) (by omega) ((bodyAt_succ c cs k).mpr hc)
                  have : n = i1 := by
                    by_contra hne
                    rcases Nat.lt_or_ge n i1 with hlt | hge
                    · exact hmin1 n hlt hn
                    · exact hminn i1 (by omega) hb1
                  omega
        | none =>
            constructor
            · intro h; exact absurd h (by simp)
            · rintro ⟨hb, -⟩
              exfalso
              cases i with
              | zero => exact hno hb
              | succ n =>
                  have hn : BodyAt cs n := (bodyAt_succ c cs n).mp hb
                  have hex : ∃ m, BodyAt cs m := ⟨n, hn⟩
                  have hsome := (findBody_spec cs (Nat.find hex)).mpr
                    ⟨Nat.find_spec hex, fun k hk => Nat.find_min hex hk⟩
                  rw [hR] at hsome
                  exact absurd hsome (by simp)

theorem findDivBody_eq_none (s : List Char) :
    findDivBody s = none ↔ ∀ i, ¬ DivBodyAt s i := by
  constructor
  · intro h i hi
    have hex : ∃ m, DivBodyAt s m := ⟨i, hi⟩
    have hsome := (findDivBody_spec s
      (Nat.find hex + 6 + runLen isPySpace (s.drop (Nat.find hex + 6)))).mpr
      ⟨Nat.find hex, Nat.find_spec hex, fun k hk => Nat.find_min hex hk, rfl⟩
    rw [h] at hsome
    exact absurd hsome (by simp)
  · intro h
    cases hF : findDivBody s with
    | none => rfl
    | some j =>
        obtain ⟨i, hi, -, -⟩ := (findDivBody_spec s j).mp hF
        exact absurd hi (h i)

theorem findBody_eq_none (s : List Char) :
    findBody s = none ↔ ∀ i, ¬ BodyAt s i := by
  constructor
  · intro h i hi
    have hex : ∃ m, BodyAt s m := ⟨i, hi⟩
    have hsome := (findBody_spec s (Nat.find hex)).mpr
      ⟨Nat.find_spec hex, fun k hk => Nat.find_min hex hk⟩
    rw [h] at hsome
    exact absurd hsome (by simp)
  · intro h
    cases hF : findBody s with
    | none => rfl
    | some i =>
        obtain ⟨hi, -⟩ := (findBody_spec s i).mp hF
        exact absurd hi (h i)

theorem ciPrefix_length_le : ∀ p s : List Char, ciPrefix p s = true → p.length ≤ s.length
  | [], s, _ => by simp
  | a :: as, [], h => by simp [ciPrefix] at h
  | a :: as, b :: bs, h => by
      rw [ciPrefix, Bool.and_eq_true] at h
      simpa using ciPrefix_length_le as bs h.2

theorem divBodyAt_le (s : List Char) (i : Nat) (h : DivBodyAt s i) : i + 6 ≤ s.length := by
  have := ciPrefix_length_le divPat (s.drop i) h.1
  simp only [List.length_drop] at this
  have hd : divPat.length = 6 := by decide
  omega

theorem insertAt_length (content mh : List Char) (j : Nat) :
    (content.take j ++ mh ++ ['\n'] ++ content.drop j).length =
      content.length + mh.length + 1 := by
  simp only [List.length_append, List.length_take, List.length_drop, List.length_cons,
    List.length_nil]
  omega

theorem insertAt_ne (content mh : List Char) (j : Nat) :
    content.take j ++ mh ++ ['\n'] ++ content.drop j ≠ content := by
  intro h
  have hlen := congrArg List.length h
  rw [insertAt_length] at hlen
  omega

/-- C2 (amended). If the document contains a closing div directly followed
(up to whitespace) by a closing body, the marker block goes between the
first such anchor's div-plus-whitespace and its closing body; otherwise,
if a closing body exists, the marker goes immediately before the first
one; with neither anchor the document is returned unchanged and the call
reports `false`.  Insertion adds exactly one marker block and a newline
(so it happens at most once per document). -/
theorem C2_insertion_points (content : List Char) (mark : Char) :
    ((∃ i, DivBodyAt content i) →
      ∃ i j, DivBodyAt content i ∧ (∀ k < i, ¬ DivBodyAt content k) ∧
        j = i + 6 + runLen isPySpace (content.drop (i + 6)) ∧
        (insert_watermark content mark).1 =
          content.take j ++ mark_html mark ++ ['\n'] ++ content.drop j ∧
        (insert_watermark content mark).2 = true ∧
        (insert_watermark content mark).1.length =
          content.length + (mark_html mark).length + 1) ∧
    ((∀ i, ¬ DivBodyAt content i) → (∃ i, BodyAt content i) →
      ∃ i, BodyAt content i ∧ (∀ k < i, ¬ BodyAt content k) ∧
        (insert_watermark content mark).1 =
          content.take i ++ mark_html mark ++ ['\n'] ++ content.drop i ∧
        (insert_watermark content mark).2 = true ∧
        (insert_watermark content mark).1.length =
          content.length + (mark_html mark).length + 1) ∧
    ((∀ i, ¬ BodyAt content i) →
      insert_watermark content mark = (content, false)) := by
  refine ⟨?_, ?_, ?_⟩
  · intro hex
    cases hF : findDivBody content with
    | none =>
        obtain ⟨i, hi⟩ := hex
        exact absurd hi ((findDivBody_eq_none content).mp hF i)
    | some j =>
        obtain ⟨i, hi, hmin, hj⟩ := (findDivBody_spec content j).mp hF
        refine ⟨i, j, hi, hmin, hj, ?_, ?_, ?_⟩
        · simp [insert_watermark, hF]
        · simp only [insert_watermark, hF]
          simp only [decide_eq_true_eq]
          intro hcontra
          exact insertAt_ne content (mark_html mark) j (by simpa using hcontra)
        · simp [insert_watermark, hF]
          omega
  · intro hnone hex
    have hF : findDivBody content = none := (findDivBody_eq_none content).mpr hnone
    cases hB : findBody content with
    | none =>
        obtain ⟨i, hi⟩ := hex
        exact absurd hi ((findBody_eq_none content).mp hB i)
    | some i =>
        obtain ⟨hi, hmin⟩ := (findBody_spec content i).mp hB
        refine ⟨i, hi, hmin, ?_, ?_, ?_⟩
        · simp [insert_watermark, hF, hB]
        · simp only [insert_watermark, hF, hB]
          simp only [decide_eq_true_eq]
          intro hcontra
          exact insertAt_ne content (mark_html mark) i (by simpa using hcontra)
        · simp [insert_watermark, hF, hB]
          omega
  · intro hnone
    have hDB : ∀ i, ¬ DivBodyAt content i := by
      intro i hi
      exact hnone (i + 6 + runLen isPySpace (content.drop (i + 6))) hi.2
    have hF : findDivBody content = none := (findDivBody_eq_none content).mpr hDB
    have hB : findBody content = none := (findBody_eq_none content).mpr hnone
    simp [insert_watermark, hF, hB]

/-- Witness for C2: the anchor-existence hypotheses discharged concretely. -/
theorem C2_insertion_points_witness :
    (insert_watermark "</div></body>".toList '▲').2 = true := by
  obtain ⟨i, j, -, -, -, -, h2, -⟩ :=
    (C2_insertion_points "</div></body>".toList '▲').1 ⟨0, by decide⟩
  exact h2

/-- C2 counterexample: with two div-body anchors the code inserts at the
first (position 0), not between the last such closing div (position 13)
and its closing body, refuting the claim's "last" placement. -/
theorem C2_last_anchor_counterexample :
    (insert_watermark "</div></body></div></body>".toList '▲').1 =
      "</div>".toList ++ mark_html '▲' ++ ['\n'] ++ "</body></div></body>".toList ∧
    DivBodyAt "</div></body></div></body>".toList 13 ∧
    (∀ k, 13 < k → ¬ DivBodyAt "</div></body></div></body>".toList k) ∧
    (insert_watermark "</div></body></div></body>".toList '▲').1 ≠
      "</div></body></div>".toList ++ mark_html '▲' ++ ['\n'] ++ "</body>".toList := by
  refine ⟨by decide, by decide, ?_, by decide⟩
  intro k hk h
  have hle := divBodyAt_le _ _ h
  simp only [List.length] at hle
  have hk20 : k ≤ 20 := by
    have : ("</div></body></div></body>".toList).length = 26 := by decide
    omega
  interval_cases k <;> revert h <;> decide

/-! ### OPF metadata editing (`opf_editor.update_opf_metadata`)

The descriptor's metadata container is a list of child elements; each
element carries its (namespace-qualified) tag, its text and its
attributes.  The Python code mutates elements in place; here the list is
rebuilt with the mutation applied at the same position. -/

structure Elem where
  tag : String
  text : String
  attrs : List (String × String)
deriving DecidableEq

/-- The metadata record extracted from the MHTML registration form. -/
structure MetadataRecord where
  title : String
  creator : String
  subject : String
  publisher : String
  isbn : String
  description : String
deriving DecidableEq

/-- `elem.get(k)` on attributes. -/
def getAttr (e : Elem) (k : String) : Option String :=
  (e.attrs.find? (fun p => p.1 == k)).map Prod.snd

/-- `del elem.attrib[k]` (no-op when the key is absent, matching the
guarded delete in the source). -/
def delAttr (e : Elem) (k : String) : Elem :=
  { e with tag := e.tag, text := e.text, attrs := e.attrs.filter (fun p => p.1 != k) }

/-- Overwrite the text of the first child with the given tag, or append a
fresh child when none exists (the body of `update_dc_elem`). -/
def updFirst (tag val : String) : List Elem → List Elem
  | [] => [⟨tag, val, []⟩]
  | e :: es => if e.tag = tag then { e with text := val } :: es else e :: updFirst tag val es

/-- `update_dc_elem(name, value)`: skip falsy values, else update or
create `dc:<name>`. -/
def update_dc_elem (name val : String) (l : List Elem) : List Elem :=
  if val = "" then l else updFirst ("dc:" ++ name) val l

/-- `str.strip()` on `String`. -/
def pyStripStr (s : String) : String := String.mk (pyStrip s.toList)

/-- `str.lower()` (ASCII range). -/
def lowerStr (s : String) : String := String.mk (s.toList.map pyLower)

/-- `isbn_value.split(":")[-1]`. -/
def afterLastColon (s : String) : String :=
  String.mk ((s.toList.reverse.takeWhile (fun c => c != ':')).reverse)

/-- `str.startswith` on `String` values. -/
def strStartsWith (pre s : String) : Bool := pre.toList.isPrefixOf s.toList

/-- ISBN normalization: keep a `urn:isbn:`-prefixed value as is (raw form
is the last colon segment), otherwise prepend the prefix (raw form is the
input).  Returns `(formatted, raw)`. -/
def formatIsbn (isbn : String) : String × String :=
  if strStartsWith "urn:isbn:" (lowerStr isbn) then (isbn, afterLastColon isbn)
  else ("urn:isbn:" ++ isbn, isbn)

/-- The qualified tag of `dc:identifier` children. -/
def identTag : String := "dc:identifier"

/-- Identifier carrying `opf:scheme="ISBN"`. -/
def isSchemeIsbn (e : Elem) : Bool :=
  e.tag == identTag && (getAttr e "opf:scheme" == some "ISBN")

/-- Identifier whose stripped text equals the raw or formatted ISBN. -/
def isTextMatch (raw fmt : String) (e : Elem) : Bool :=
  e.tag == identTag && (pyStripStr e.text == raw || pyStripStr e.text == fmt)

/-- Index of the first child matching `p`. -/
def findIdxFrom (p : Elem → Bool) : List Elem → Option Nat
  | [] => none
  | e :: es => if p e then some 0 else (findIdxFrom p es).map (· + 1)

/-- The scheme-attribute search, then the text search (steps 1-2 of the
identifier handling). -/
def chooseIsbnIdx (raw fmt : String) (l : List Elem) : Option Nat :=
  match findIdxFrom isSchemeIsbn l with
  | some i => some i
  | none => findIdxFrom (isTextMatch raw fmt) l

/-- `l[i]`. -/
def nthOpt : List Elem → Nat → Option Elem
  | [], _ => none
  | e :: _, 0 => some e
  | _ :: es, n + 1 => nthOpt es n

/-- Replace the element at index `i`. -/
def modifyAt (f : Elem → Elem) : Nat → List Elem → List Elem
  | _, [] => []
  | 0, e :: es => f e :: es
  | n + 1, e :: es => e :: modifyAt f n es

/-- A `meta` (or `opf:meta`) child refining the identifier by id with
`property="opf:scheme"` — removed as stale once the scheme attribute is
dropped. -/
def isStaleSchemeMeta (idv : String) (m : Elem) : Bool :=
  (m.tag == "opf:meta" || m.tag == "meta") &&
    (getAttr m "refines" == some ("#" ++ idv)) &&
    (getAttr m "property" == some "opf:scheme")

/-- Removal of stale scheme-refining metas for the chosen identifier
(skipped when the identifier has no usable `id`). -/
def metaCleanup (e : Elem) (l : List Elem) : List Elem :=
  match getAttr e "id" with
  | none => l
  | some idv => if idv = "" then l else l.filter (fun m => !(isStaleSchemeMeta idv m))

/-- The special-cased ISBN handling of `update_opf_metadata`. -/
def updateIsbn (isbn : String) (l : List Elem) : List Elem :=
  if isbn = "" then l
  else
    let fmt := (formatIsbn isbn).1
    let raw := (formatIsbn isbn).2
    match chooseIsbnIdx raw fmt l with
    | some i =>
        match nthOpt l i with
        | some e0 =>
            let e1 := delAttr { e0 with text := fmt } "opf:scheme"
            metaCleanup e1 (modifyAt (fun _ => e1) i l)
        | none => l
    | none =>
        metaCleanup ⟨identTag, fmt, []⟩ (l ++ [⟨identTag, fmt, []⟩])

/-- The full update on the metadata container's children: the five
descriptive fields in source order, then the identifier handling. -/
def update_opf_children (md : MetadataRecord) (l : List Elem) : List Elem :=
  updateIsbn md.isbn
    (update_dc_elem "description" md.description
      (update_dc_elem "publisher" md.publisher
        (update_dc_elem "subject" md.subject
          (update_dc_elem "creator" md.creator
            (update_dc_elem "title" md.title l)))))

/-- `update_opf_metadata`: a missing metadata container raises
`ValueError` (modelled as `Except.error`); otherwise the children are
rewritten in place. -/
def update_opf_metadata (metadataElem : Option (List Elem)) (md : MetadataRecord) :
    Except String (List Elem) :=
  match metadataElem with
  | none => Except.error "Elemento metadata nao encontrado no OPF"
  | some l => Except.ok (update_opf_children md l)

/-- Step 4 of `main`: each platform's copy of the descriptor is updated in
turn; the loop has no exception handling, so an error propagates and
aborts the remaining iterations. -/
def processPlatformsMetadata (platforms : List String) (metadataElem : Option (List Elem))
    (md : MetadataRecord) : Except String (List (String × List Elem)) :=
  match platforms with
  | [] => Except.ok []
  | p :: ps =>
      match update_opf_metadata metadataElem md with
      | Except.error e => Except.error e
      | Except.ok l =>
          match processPlatformsMetadata ps metadataElem md with
          | Except.error e => Except.error e
          | Except.ok rest => Except.ok ((p, l) :: rest)

/-- A sample extracted record (used to instantiate universally quantified
theorems at concrete inputs). -/
def mdExample : MetadataRecord :=
  ⟨"Titulo", "Autora", "Assunto", "Editora", "9786558823230", "Sinopse"⟩

/-- C3 counterexample: with the metadata container absent, the run over
all five platforms aborts with the malformed-descriptor error — no
platform's processing completes, refuting the claimed isolation. -/
theorem C3_no_isolation_counterexample :
    processPlatformsMetadata PLATFORMS none mdExample =
      Except.error "Elemento metadata nao encontrado no OPF" ∧
    2 ≤ PLATFORMS.length := by
  exact ⟨rfl, by decide⟩

/-- C3 (amended). A missing metadata container makes `updateMetadata`
fail with the malformed-descriptor error, and since the orchestrator's
loop does not catch it, the error aborts the whole run: with at least one
platform to process, no per-platform results are produced. -/
theorem C3_missing_container_aborts_run (platforms : List String) (md : MetadataRecord)
    (h : platforms ≠ []) :
    update_opf_metadata none md = Except.error "Elemento metadata nao encontrado no OPF" ∧
    processPlatformsMetadata platforms none md =
      Except.error "Elemento metadata nao encontrado no OPF" := by
  refine ⟨rfl, ?_⟩
  cases platforms with
  | nil => exact absurd rfl h
  | cons p ps => rfl

/-- Witness for C3: the nonemptiness hypothesis discharged on the shipped
platform list. -/
theorem C3_missing_container_aborts_run_witness :
    processPlatformsMetadata PLATFORMS none mdExample =
      Except.error "Elemento metadata nao encontrado no OPF" :=
  (C3_missing_container_aborts_run PLATFORMS mdExample (by decide)).2

/-! Helper lemmas for the identifier handling. -/

/-- The identifier children, in order. -/
def idents (l : List Elem) : List Elem := l.filter (fun e => e.tag == identTag)

theorem findIdxFrom_nth (p : Elem → Bool) :
    ∀ (l : List Elem) (i : Nat), findIdxFrom p l = some i →
      ∃ e, nthOpt l i = some e ∧ p e = true
  | [], i, h => by simp [findIdxFrom] at h
  | e :: es, i, h => by
      rw [findIdxFrom] at h
      by_cases hp : p e
      · rw [if_pos hp] at h
        injection h with h
        subst h
        exact ⟨e, rfl, hp⟩
      · rw [if_neg hp] at h
        cases hR : findIdxFrom p es with
        | none => rw [hR] at h; exact absurd h (by simp)
        | some i1 =>
            rw [hR] at h
            injection h with h
            subst h
            obtain ⟨e1, he1, hpe1⟩ := findIdxFrom_nth p es i1 hR
            exact ⟨e1, he1, hpe1⟩

theorem nthOpt_mem : ∀ (l : List Elem) (i : Nat) (e : Elem), nthOpt l i = some e → e ∈ l
  | [], i, e, h => by simp [nthOpt] at h
  | x :: xs, 0, e, h => by
      rw [nthOpt] at h
      injection h with h
      subst h
      exact List.mem_cons_self x xs
  | x :: xs, n + 1, e, h => List.mem_cons_of_mem x (nthOpt_mem xs n e h)

theorem modifyAt_nth (f : Elem → Elem) :
    ∀ (l : List Elem) (i : Nat) (e : Elem), nthOpt l i = some e →
      nthOpt (modifyAt f i l) i = some (f e)
  | [], i, e, h => by simp [nthOpt] at h
  | x :: xs, 0, e, h => by
      rw [nthOpt] at h
      injection h with h
      subst h
      rfl
  | x :: xs, n + 1, e, h => modifyAt_nth f xs n e h

theorem getAttr_delAttr (e : Elem) (k : String) : getAttr (delAttr e k) k = none := by
  rw [getAttr, delAttr]
  have hfind : List.find? (fun p => p.1 == k) (e.attrs.filter (fun p => p.1 != k)) = none := by
    rw [List.find?_eq_none]
    intro p hp
    have h2 := (List.mem_filter.mp hp).2
    simp only [bne_iff_ne, ne_eq] at h2
    simpa using h2
  rw [hfind]
  rfl

/-- Filtering by a predicate that keeps every identifier preserves the
identifier sublist. -/
theorem idents_filter (q : Elem → Bool) (hq : ∀ e : Elem, e.tag == identTag → q e = true) :
    ∀ l : List Elem, idents (l.filter q) = idents l
  | [] => rfl
  | e :: es => by
      rw [idents, idents] at *
      by_cases ht : e.tag == identTag
      · rw [List.filter_cons, hq e ht]
        simp only [if_true]
        rw [List.filter_cons, if_pos ht, List.filter_cons, if_pos ht]
        have := idents_filter q hq es
        rw [idents, idents] at this
        rw [this]
      · rw [List.filter_cons]
        by_cases hqe : q e
        · rw [if_pos hqe, List.filter_cons, if_neg ht, List.filter_cons, if_neg ht]
          have := idents_filter q hq es
          rw [idents, idents] at this
          exact this
        · rw [if_neg ?_, List.filter_cons, if_neg ht]
          · have := idents_filter q hq es
            rw [idents, idents] at this
            exact this
          · simpa using hqe

theorem idents_metaCleanup (e : Elem) (l : List Elem) : idents (metaCleanup e l) = idents l := by
  rw [metaCleanup]
  split
  · rfl
  · split
    · rfl
    · apply idents_filter
      intro m hm
      rw [isStaleSchemeMeta]
      have : m.tag = identTag := by simpa using hm
      simp [this, identTag]

theorem mem_metaCleanup (e x : Elem) (l : List Elem) (hx : x ∈ l)
    (hxtag : x.tag = identTag) : x ∈ metaCleanup e l := by
  rw [metaCleanup]
  split
  · exact hx
  · split
    · exact hx
    · rw [List.mem_filter]
      refine ⟨hx, ?_⟩
      rw [isStaleSchemeMeta]
      simp [hxtag, identTag]

/-- Replacing the element at a valid index by one with the same tag
preserves the identifier count. -/
theorem idents_length_modifyAt (f : Elem → Elem) :
    ∀ (l : List Elem) (i : Nat) (e : Elem), nthOpt l i = some e → (f e).tag = e.tag →
      (idents (modifyAt f i l)).length = (idents l).length
  | [], i, e, h, _ => by simp [nthOpt] at h
  | x :: xs, 0, e, h, hf => by
      rw [nthOpt] at h
      injection h with h
      rw [modifyAt, idents, idents, List.filter_cons, List.filter_cons]
      have htag : ((f x).tag == identTag) = (x.tag == identTag) := by rw [h, hf]
      rw [htag]
      by_cases ht : x.tag == identTag
      · rw [if_pos ht, if_pos ht]; simp
      · rw [if_neg ht, if_neg ht]
  | x :: xs, n + 1, e, h, hf => by
      rw [modifyAt, idents, idents, List.filter_cons, List.filter_cons]
      have hrec := idents_length_modifyAt f xs n e h hf
      rw [idents, idents] at hrec
      by_cases ht : x.tag == identTag
      · rw [if_pos ht, if_pos ht]
        simp only [List.length_cons, Nat.succ_inj]
        exact hrec
      · rw [if_neg ht, if_neg ht]
        exact hrec

theorem modifyAt_mem_of_nth (f : Elem → Elem) (l : List Elem) (i : Nat) (e : Elem)
    (h : nthOpt l i = some e) : f e ∈ modifyAt f i l :=
  nthOpt_mem _ i (f e) (modifyAt_nth f l i e h)

/-- `updFirst` with a non-identifier tag does not disturb identifier
searches. -/
theorem findIdxFrom_updFirst (p : Elem → Bool) (tag v : String)
    (hp : ∀ e : Elem, e.tag ≠ identTag → p e = false) (htag : tag ≠ identTag) :
    ∀ l : List Elem, findIdxFrom p (updFirst tag v l) = findIdxFrom p l
  | [] => by
      simp [updFirst, findIdxFrom, hp ⟨tag, v, []⟩ htag]
  | e :: es => by
      rw [updFirst]
      by_cases ht : e.tag = tag
      · rw [if_pos ht, findIdxFrom, findIdxFrom]
        have hpe : p e = false := hp e (ht ▸ htag)
        have hpe' : p { e with text := v } = false := hp _ (by simpa using ht ▸ htag)
        rw [hpe, hpe']
      · rw [if_neg ht, findIdxFrom, findIdxFrom]
        by_cases hpe : p e
        · rw [if_pos hpe, if_pos hpe]
        · rw [if_neg hpe, if_neg hpe, findIdxFrom_updFirst p tag v hp htag es]

theorem idents_updFirst (tag v : String) (htag : tag ≠ identTag) :
    ∀ l : List Elem, idents (updFirst tag v l) = idents l
  | [] => by
      rw [updFirst, idents, idents, List.filter_cons]
      have : (tag == identTag) = false := by simpa using htag
      simp only [this]
      rfl
  | e :: es => by
      rw [updFirst]
      by_cases ht : e.tag = tag
      · rw [if_pos ht, idents, idents, List.filter_cons, List.filter_cons]
        have h1 : (e.tag == identTag) = false := by simp [ht, htag]
        rw [h1]
        simp
      · rw [if_neg ht, idents, idents, List.filter_cons, List.filter_cons]
        by_cases hi : e.tag == identTag
        · rw [if_pos hi, if_pos hi]
          have := idents_updFirst tag v htag es
          rw [idents, idents] at this
          rw [this]
        · rw [if_neg hi, if_neg hi]
          have := idents_updFirst tag v htag es
          rw [idents, idents] at this
          exact this

theorem isSchemeIsbn_ident (e : Elem) (h : e.tag ≠ identTag) : isSchemeIsbn e = false := by
  rw [isSchemeIsbn]
  simp [h]

theorem isTextMatch_ident (raw fmt : String) (e : Elem) (h : e.tag ≠ identTag) :
    isTextMatch raw fmt e = false := by
  rw [isTextMatch]
  simp [h]

theorem chooseIsbnIdx_nth (raw fmt : String) (l : List Elem) (i : Nat)
    (h : chooseIsbnIdx raw fmt l = some i) :
    ∃ e, nthOpt l i = some e ∧ (isSchemeIsbn e = true ∨ isTextMatch raw fmt e = true) := by
  rw [chooseIsbnIdx] at h
  cases hS : findIdxFrom isSchemeIsbn l with
  | some j =>
      rw [hS] at h
      injection h with h
      subst h
      obtain ⟨e, he, hp⟩ := findIdxFrom_nth _ l _ hS
      exact ⟨e, he, Or.inl hp⟩
  | none =>
      rw [hS] at h
      obtain ⟨e, he, hp⟩ := findIdxFrom_nth _ l i h
      exact ⟨e, he, Or.inr hp⟩

theorem chooseIsbnIdx_update_dc (raw fmt name val : String) (hne : "dc:" ++ name ≠ identTag)
    (l : List Elem) :
    chooseIsbnIdx raw fmt (update_dc_elem name val l) = chooseIsbnIdx raw fmt l := by
  rw [update_dc_elem]
  by_cases hv : val = ""
  · rw [if_pos hv]
  · rw [if_neg hv, chooseIsbnIdx, chooseIsbnIdx]
    rw [findIdxFrom_updFirst isSchemeIsbn _ _ (fun e he => isSchemeIsbn_ident e he) hne]
    rw [findIdxFrom_updFirst (isTextMatch raw fmt) _ _
      (fun e he => isTextMatch_ident raw fmt e he) hne]

theorem idents_update_dc (name val : String) (hne : "dc:" ++ name ≠ identTag)
    (l : List Elem) : idents (update_dc_elem name val l) = idents l := by
  rw [update_dc_elem]
  by_cases hv : val = ""
  · rw [if_pos hv]
  · rw [if_neg hv]
    exact idents_updFirst _ _ hne l

/-- The composite of the five descriptive-field updates. -/
def dcUpdates (md : MetadataRecord) (l : List Elem) : List Elem :=
  update_dc_elem "description" md.description
    (update_dc_elem "publisher" md.publisher
      (update_dc_elem "subject" md.subject
        (update_dc_elem "creator" md.creator
          (update_dc_elem "title" md.title l))))

theorem update_opf_children_eq (md : MetadataRecord) (l : List Elem) :
    update_opf_children md l = updateIsbn md.isbn (dcUpdates md l) := rfl

theorem chooseIsbnIdx_dcUpdates (raw fmt : String) (md : MetadataRecord) (l : List Elem) :
    chooseIsbnIdx raw fmt (dcUpdates md l) = chooseIsbnIdx raw fmt l := by
  rw [dcUpdates]
  rw [chooseIsbnIdx_update_dc raw fmt "description" _ (by decide)]
  rw [chooseIsbnIdx_update_dc raw fmt "publisher" _ (by decide)]
  rw [chooseIsbnIdx_update_dc raw fmt "subject" _ (by decide)]
  rw [chooseIsbnIdx_update_dc raw fmt "creator" _ (by decide)]
  rw [chooseIsbnIdx_update_dc raw fmt "title" _ (by decide)]

theorem idents_dcUpdates (md : MetadataRecord) (l : List Elem) :
    idents (dcUpdates md l) = idents l := by
  rw [dcUpdates]
  rw [idents_update_dc "description" _ (by decide)]
  rw [idents_update_dc "publisher" _ (by decide)]
  rw [idents_update_dc "subject" _ (by decide)]
  rw [idents_update_dc "creator" _ (by decide)]
  rw [idents_update_dc "title" _ (by decide)]

theorem tag_of_isbnMatch (raw fmt : String) (e : Elem)
    (h : isSchemeIsbn e = true ∨ isTextMatch raw fmt e = true) : e.tag = identTag := by
  rcases h with h | h
  · rw [isSchemeIsbn, Bool.and_eq_true] at h
    simpa using h.1
  · rw [isTextMatch, Bool.and_eq_true] at h
    simpa using h.1

/-- C5. For a record with non-empty ISBN and a descriptor containing a
matching identifier (first by `opf:scheme="ISBN"`, then by raw/URN text),
the update reuses an existing identifier (the identifier count is
unchanged), and the updated identifier's text is the URN form — the value
kept as is when already `urn:isbn:`-prefixed, otherwise prefixed — with
no `opf:scheme` attribute left on it. -/
theorem C5_isbn_identifier (l : List Elem) (md : MetadataRecord)
    (hisbn : md.isbn ≠ "")
    (hmatch : chooseIsbnIdx (formatIsbn md.isbn).2 (formatIsbn md.isbn).1 l ≠ none) :
    (formatIsbn md.isbn).1 =
      (if strStartsWith "urn:isbn:" (lowerStr md.isbn) then md.isbn
       else "urn:isbn:" ++ md.isbn) ∧
    (idents (update_opf_children md l)).length = (idents l).length ∧
    ∃ e ∈ update_opf_children md l, e.tag = identTag ∧
      e.text = (formatIsbn md.isbn).1 ∧ getAttr e "opf:scheme" = none := by
  have hfmt : (formatIsbn md.isbn).1 =
      (if strStartsWith "urn:isbn:" (lowerStr md.isbn) then md.isbn
       else "urn:isbn:" ++ md.isbn) := by
    rw [formatIsbn]
    by_cases h : strStartsWith "urn:isbn:" (lowerStr md.isbn) <;> simp [h]
  obtain ⟨i, hch⟩ : ∃ i, chooseIsbnIdx (formatIsbn md.isbn).2 (formatIsbn md.isbn).1 l
      = some i := by
    cases hc : chooseIsbnIdx (formatIsbn md.isbn).2 (formatIsbn md.isbn).1 l with
    | none => exact absurd hc hmatch
    | some i => exact ⟨i, rfl⟩
  have hch' : chooseIsbnIdx (formatIsbn md.isbn).2 (formatIsbn md.isbn).1
      (dcUpdates md l) = some i := by
    rw [chooseIsbnIdx_dcUpdates, hch]
  obtain ⟨e0, hnth, hsel⟩ := chooseIsbnIdx_nth _ _ _ _ hch'
  have htag0 : e0.tag = identTag := tag_of_isbnMatch _ _ _ hsel
  have hresult : update_opf_children md l =
      metaCleanup (delAttr { e0 with text := (formatIsbn md.isbn).1 } "opf:scheme")
        (modifyAt
          (fun _ => delAttr { e0 with text := (formatIsbn md.isbn).1 } "opf:scheme") i
          (dcUpdates md l)) := by
    rw [update_opf_children_eq, updateIsbn, if_neg hisbn]
    simp only [hch', hnth]
  refine ⟨hfmt, ?_, ?_⟩
  · rw [hresult, idents_metaCleanup]
    rw [idents_length_modifyAt _ _ _ _ hnth rfl]
    rw [idents_dcUpdates]
  · refine ⟨delAttr { e0 with text := (formatIsbn md.isbn).1 } "opf:scheme",
      ?_, htag0, rfl, getAttr_delAttr _ _⟩
    rw [hresult]
    apply mem_metaCleanup
    · exact modifyAt_mem_of_nth _ _ _ _ hnth
    · exact htag0

/-- A concrete identifier child used to instantiate theorems. -/
def elemEx : Elem := ⟨"dc:identifier", "999", [("opf:scheme", "ISBN"), ("id", "uid")]⟩

/-- Witness for C5: both hypotheses discharged on a concrete descriptor. -/
theorem C5_isbn_identifier_witness :
    (idents (update_opf_children mdExample [elemEx])).length = (idents [elemEx]).length :=
  (C5_isbn_identifier [elemEx] mdExample (by decide) (by decide)).2.1

/-! Idempotence machinery: stability of the descriptive-field updates and
of the identifier handling under a second pass. -/

/-- First child carrying a given tag. -/
def firstWithTag (tag : String) : List Elem → Option Elem
  | [] => none
  | e :: es => if e.tag = tag then some e else firstWithTag tag es

/-- An identifier the ISBN handling would select: by scheme or by text. -/
def isbnMatch (raw fmt : String) (e : Elem) : Bool :=
  isSchemeIsbn e || isTextMatch raw fmt e

theorem isbnMatch_ident (raw fmt : String) (e : Elem) (h : e.tag ≠ identTag) :
    isbnMatch raw fmt e = false := by
  rw [isbnMatch, isSchemeIsbn_ident e h, isTextMatch_ident raw fmt e h]
  rfl

theorem updFirst_of_firstWithTag (tag val : String) :
    ∀ (l : List Elem) (e : Elem), firstWithTag tag l = some e → e.text = val →
      updFirst tag val l = l
  | [], e, h, _ => by simp [firstWithTag] at h
  | x :: xs, e, h, htext => by
      rw [firstWithTag] at h
      rw [updFirst]
      by_cases ht : x.tag = tag
      · rw [if_pos ht] at h
        rw [if_pos ht]
        injection h with h
        rw [← h] at htext
        rw [← htext]
      · rw [if_neg ht] at h
        rw [if_neg ht, updFirst_of_firstWithTag tag val xs e h htext]

theorem firstWithTag_updFirst_self (tag val : String) :
    ∀ l : List Elem, ∃ e, firstWithTag tag (updFirst tag val l) = some e ∧ e.text = val
  | [] => ⟨⟨tag, val, []⟩, by simp [updFirst, firstWithTag], rfl⟩
  | x :: xs => by
      rw [updFirst]
      by_cases ht : x.tag = tag
      · rw [if_pos ht]
        refine ⟨{ x with text := val }, ?_, rfl⟩
        rw [firstWithTag, if_pos ht]
      · rw [if_neg ht]
        obtain ⟨e, he, ht2⟩ := firstWithTag_updFirst_self tag val xs
        refine ⟨e, ?_, ht2⟩
        rw [firstWithTag, if_neg ht]
        exact he

theorem firstWithTag_updFirst_other (tag tag2 val : String) (hne : tag ≠ tag2) :
    ∀ l : List Elem, firstWithTag tag (updFirst tag2 val l) = firstWithTag tag l
  | [] => by
      rw [updFirst, firstWithTag, firstWithTag, firstWithTag]
      rw [if_neg (by simpa using hne.symm)]
  | x :: xs => by
      rw [updFirst]
      by_cases ht : x.tag = tag2
      · rw [if_pos ht, firstWithTag, firstWithTag]
        have hx : x.tag ≠ tag := by rw [ht]; exact fun hc => hne hc.symm
        rw [if_neg (by simpa using hx), if_neg hx]
      · rw [if_neg ht, firstWithTag, firstWithTag]
        by_cases hx : x.tag = tag
        · rw [if_pos hx, if_pos hx]
        · rw [if_neg hx, if_neg hx, firstWithTag_updFirst_other tag tag2 val hne xs]

theorem firstWithTag_filter (tag : String) (q : Elem → Bool)
    (hq : ∀ e : Elem, e.tag = tag → q e = true) :
    ∀ l : List Elem, firstWithTag tag (l.filter q) = firstWithTag tag l
  | [] => rfl
  | x :: xs => by
      rw [List.filter_cons, firstWithTag]
      by_cases hx : x.tag = tag
      · rw [hq x hx]
        simp only [if_true]
        rw [firstWithTag, if_pos hx, if_pos hx]
      · by_cases hqx : q x
        · rw [hqx]
          simp only [if_true]
          rw [firstWithTag, if_neg hx, if_neg hx, firstWithTag_filter tag q hq xs]
        · rw [Bool.not_eq_true] at hqx
          rw [hqx]
          simp only [Bool.false_eq_true, if_false]
          rw [if_neg hx, firstWithTag_filter tag q hq xs]

theorem firstWithTag_modifyAt (tag : String) (e1 : Elem) :
    ∀ (l : List Elem) (i : Nat) (e0 : Elem), nthOpt l i = some e0 →
      e0.tag ≠ tag → e1.tag ≠ tag →
      firstWithTag tag (modifyAt (fun _ => e1) i l) = firstWithTag tag l
  | [], i, e0, h, _, _ => by simp [nthOpt] at h
  | x :: xs, 0, e0, h, h0, h1 => by
      rw [nthOpt] at h
      injection h with h
      rw [modifyAt, firstWithTag, firstWithTag, if_neg h1, if_neg (h ▸ h0)]
  | x :: xs, n + 1, e0, h, h0, h1 => by
      rw [modifyAt, firstWithTag, firstWithTag]
      by_cases hx : x.tag = tag
      · rw [if_pos hx, if_pos hx]
      · rw [if_neg hx, if_neg hx, firstWithTag_modifyAt tag e1 xs n e0 h h0 h1]

theorem firstWithTag_append (tag : String) :
    ∀ (l l2 : List Elem) (e : Elem), firstWithTag tag l = some e →
      firstWithTag tag (l ++ l2) = some e
  | [], l2, e, h => by simp [firstWithTag] at h
  | x :: xs, l2, e, h => by
      rw [firstWithTag] at h
      rw [List.cons_append, firstWithTag]
      by_cases hx : x.tag = tag
      · rw [if_pos hx] at h
        rw [if_pos hx]
        exact h
      · rw [if_neg hx] at h
        rw [if_neg hx]
        exact firstWithTag_append tag xs l2 e h

/-- `metaCleanup` for an element without a usable id is the identity. -/
theorem metaCleanup_no_id (e : Elem) (l : List Elem) (h : getAttr e "id" = none) :
    metaCleanup e l = l := by
  rw [metaCleanup, h]

theorem firstWithTag_metaCleanup (tag : String) (hm1 : tag ≠ "opf:meta") (hm2 : tag ≠ "meta")
    (e : Elem) (l : List Elem) :
    firstWithTag tag (metaCleanup e l) = firstWithTag tag l := by
  rw [metaCleanup]
  split
  · rfl
  · split
    · rfl
    · apply firstWithTag_filter
      intro x hx
      rw [isStaleSchemeMeta]
      have hx1 : (x.tag == "opf:meta") = false := by simp [hx, hm1]
      have hx2 : (x.tag == "meta") = false := by simp [hx, hm2]
      rw [hx1, hx2]
      rfl

theorem firstWithTag_updateIsbn (tag : String) (htag : tag ≠ identTag)
    (hm1 : tag ≠ "opf:meta") (hm2 : tag ≠ "meta") (isbn : String) (l : List Elem) (e : Elem)
    (hfirst : firstWithTag tag l = some e) :
    firstWithTag tag (updateIsbn isbn l) = some e := by
  rw [updateIsbn]
  by_cases hi : isbn = ""
  · rw [if_pos hi]; exact hfirst
  · rw [if_neg hi]
    cases hch : chooseIsbnIdx (formatIsbn isbn).2 (formatIsbn isbn).1 l with
    | some i =>
        obtain ⟨e0, hnth, hsel⟩ := chooseIsbnIdx_nth _ _ _ _ hch
        have htag0 : e0.tag = identTag := tag_of_isbnMatch _ _ _ hsel
        simp only [hch, hnth]
        rw [firstWithTag_metaCleanup tag hm1 hm2]
        have he0tag : e0.tag ≠ tag := by
          rw [htag0]
          exact fun hc => htag hc.symm
        rw [firstWithTag_modifyAt tag
          (delAttr { e0 with text := (formatIsbn isbn).1 } "opf:scheme") l i e0 hnth
          he0tag he0tag]
        exact hfirst
    | none =>
        simp only [hch]
        rw [metaCleanup_no_id ⟨identTag, (formatIsbn isbn).1, []⟩ _ rfl]
        exact firstWithTag_append tag l _ e hfirst

/-- The invariant that makes a descriptive-field update a no-op: the first
child with the field's tag already carries the record's value. -/
def FieldOk (tag val : String) (l : List Elem) : Prop :=
  val ≠ "" → ∃ e, firstWithTag tag l = some e ∧ e.text = val

theorem update_dc_stable (name val : String) (l : List Elem)
    (h : FieldOk ("dc:" ++ name) val l) : update_dc_elem name val l = l := by
  rw [update_dc_elem]
  by_cases hv : val = ""
  · rw [if_pos hv]
  · rw [if_neg hv]
    obtain ⟨e, he, ht⟩ := h hv
    exact updFirst_of_firstWithTag _ _ l e he ht

theorem FieldOk_update_dc_other (tag name2 val2 val : String) (hne : tag ≠ "dc:" ++ name2)
    (l : List Elem) (h : FieldOk tag val l) : FieldOk tag val (update_dc_elem name2 val2 l) := by
  intro hv
  obtain ⟨e, he, ht⟩ := h hv
  rw [update_dc_elem]
  by_cases h2 : val2 = ""
  · rw [if_pos h2]; exact ⟨e, he, ht⟩
  · rw [if_neg h2, firstWithTag_updFirst_other tag _ _ hne]
    exact ⟨e, he, ht⟩

theorem FieldOk_update_dc_self (name val : String) (l : List Elem) :
    FieldOk ("dc:" ++ name) val (update_dc_elem name val l) := by
  intro hv
  rw [update_dc_elem, if_neg hv]
  exact firstWithTag_updFirst_self ("dc:" ++ name) val l

theorem FieldOk_updateIsbn (tag val isbn : String) (htag : tag ≠ identTag)
    (hm1 : tag ≠ "opf:meta") (hm2 : tag ≠ "meta") (l : List Elem) (h : FieldOk tag val l) :
    FieldOk tag val (updateIsbn isbn l) := by
  intro hv
  obtain ⟨e, he, ht⟩ := h hv
  exact ⟨e, firstWithTag_updateIsbn tag htag hm1 hm2 isbn l e he, ht⟩

theorem dcUpdates_stable (md : MetadataRecord) (l : List Elem)
    (h1 : FieldOk "dc:title" md.title l) (h2 : FieldOk "dc:creator" md.creator l)
    (h3 : FieldOk "dc:subject" md.subject l) (h4 : FieldOk "dc:publisher" md.publisher l)
    (h5 : FieldOk "dc:description" md.description l) :
    dcUpdates md l = l := by
  rw [dcUpdates]
  rw [update_dc_stable "title" _ _ h1]
  rw [update_dc_stable "creator" _ _ h2]
  rw [update_dc_stable "subject" _ _ h3]
  rw [update_dc_stable "publisher" _ _ h4]
  rw [update_dc_stable "description" _ _ h5]

theorem dcUpdates_fieldOk (md : MetadataRecord) (l : List Elem) :
    FieldOk "dc:title" md.title (dcUpdates md l) ∧
    FieldOk "dc:creator" md.creator (dcUpdates md l) ∧
    FieldOk "dc:subject" md.subject (dcUpdates md l) ∧
    FieldOk "dc:publisher" md.publisher (dcUpdates md l) ∧
    FieldOk "dc:description" md.description (dcUpdates md l) := by
  rw [dcUpdates]
  refine ⟨?_, ?_, ?_, ?_, ?_⟩
  · apply FieldOk_update_dc_other _ _ _ _ (by decide)
    apply FieldOk_update_dc_other _ _ _ _ (by decide)
    apply FieldOk_update_dc_other _ _ _ _ (by decide)
    apply FieldOk_update_dc_other _ _ _ _ (by decide)
    exact FieldOk_update_dc_self "title" md.title _
  · apply FieldOk_update_dc_other _ _ _ _ (by decide)
    apply FieldOk_update_dc_other _ _ _ _ (by decide)
    apply FieldOk_update_dc_other _ _ _ _ (by decide)
    exact FieldOk_update_dc_self "creator" md.creator _
  · apply FieldOk_update_dc_other _ _ _ _ (by decide)
    apply FieldOk_update_dc_other _ _ _ _ (by decide)
    exact FieldOk_update_dc_self "subject" md.subject _
  · apply FieldOk_update_dc_other _ _ _ _ (by decide)
    exact FieldOk_update_dc_self "publisher" md.publisher _
  · exact FieldOk_update_dc_self "description" md.description _

theorem findIdxFrom_eq_none (p : Elem → Bool) :
    ∀ l : List Elem, findIdxFrom p l = none ↔ ∀ e ∈ l, p e = false
  | [] => by simp [findIdxFrom]
  | x :: xs => by
      rw [findIdxFrom]
      by_cases hp : p x
      · rw [if_pos hp]
        constructor
        · intro h; exact absurd h (by simp)
        · intro h
          exact absurd (h x (List.mem_cons_self x xs)) (by simp [hp])
      · rw [if_neg hp]
        constructor
        · intro h e he
          rcases List.mem_cons.mp he with he | he
          · subst he; simpa using hp
          · cases hR : findIdxFrom p xs with
            | none => exact (findIdxFrom_eq_none p xs).mp hR e he
            | some k => rw [hR] at h; exact absurd h (by simp)
        · intro h
          have : findIdxFrom p xs = none :=
            (findIdxFrom_eq_none p xs).mpr (fun e he => h e (List.mem_cons_of_mem x he))
          rw [this]
          rfl

theorem chooseIsbnIdx_eq_none (raw fmt : String) (l : List Elem)
    (h : chooseIsbnIdx raw fmt l = none) :
    findIdxFrom isSchemeIsbn l = none ∧ findIdxFrom (isTextMatch raw fmt) l = none := by
  rw [chooseIsbnIdx] at h
  cases hS : findIdxFrom isSchemeIsbn l with
  | some i => rw [hS] at h; exact absurd h (by simp)
  | none => rw [hS] at h; exact ⟨rfl, h⟩

theorem filter_updFirst (p : Elem → Bool) (tag v : String)
    (hp : ∀ e : Elem, e.tag ≠ identTag → p e = false) (htag : tag ≠ identTag) :
    ∀ l : List Elem, (updFirst tag v l).filter p = l.filter p
  | [] => by
      rw [updFirst, List.filter_cons]
      rw [hp ⟨tag, v, []⟩ htag]
      rfl
  | x :: xs => by
      rw [updFirst]
      by_cases ht : x.tag = tag
      · rw [if_pos ht, List.filter_cons, List.filter_cons]
        have hpx : p x = false := hp x (ht ▸ htag)
        have hpx' : p { x with text := v } = false := hp _ (by simpa using ht ▸ htag)
        rw [hpx, hpx']
        simp only [Bool.false_eq_true, if_false]
      · rw [if_neg ht, List.filter_cons, List.filter_cons]
        by_cases hpx : p x
        · rw [hpx]
          simp only [if_true]
          rw [filter_updFirst p tag v hp htag xs]
        · rw [Bool.not_eq_true] at hpx
          rw [hpx]
          simp only [Bool.false_eq_true, if_false]
          exact filter_updFirst p tag v hp htag xs

theorem filter_update_dc (p : Elem → Bool) (name val : String)
    (hp : ∀ e : Elem, e.tag ≠ identTag → p e = false) (hne : "dc:" ++ name ≠ identTag)
    (l : List Elem) : (update_dc_elem name val l).filter p = l.filter p := by
  rw [update_dc_elem]
  by_cases hv : val = ""
  · rw [if_pos hv]
  · rw [if_neg hv]
    exact filter_updFirst p _ val hp hne l

theorem filter_dcUpdates (p : Elem → Bool)
    (hp : ∀ e : Elem, e.tag ≠ identTag → p e = false) (md : MetadataRecord) (l : List Elem) :
    (dcUpdates md l).filter p = l.filter p := by
  rw [dcUpdates]
  rw [filter_update_dc p "description" _ hp (by decide)]
  rw [filter_update_dc p "publisher" _ hp (by decide)]
  rw [filter_update_dc p "subject" _ hp (by decide)]
  rw [filter_update_dc p "creator" _ hp (by decide)]
  rw [filter_update_dc p "title" _ hp (by decide)]

theorem filter_le_one_nth (p : Elem → Bool) :
    ∀ (l : List Elem) (i j : Nat) (a b : Elem), (l.filter p).length ≤ 1 →
      nthOpt l i = some a → nthOpt l j = some b → p a = true → p b = true → i = j
  | [], i, j, a, b, _, ha, _, _, _ => by simp [nthOpt] at ha
  | x :: xs, 0, 0, _, _, _, _, _, _, _ => rfl
  | x :: xs, 0, j + 1, a, b, hlen, ha, hb, hpa, hpb => by
      exfalso
      simp only [nthOpt] at ha hb
      injection ha with ha
      have hpx : p x = true := by rw [ha]; exact hpa
      have hbmem : b ∈ xs := nthOpt_mem xs j b hb
      have hbf : b ∈ xs.filter p := List.mem_filter.mpr ⟨hbmem, hpb⟩
      have hpos : 0 < (xs.filter p).length :=
        List.length_pos.mpr (List.ne_nil_of_mem hbf)
      rw [List.filter_cons, hpx] at hlen
      simp only [if_true, List.length_cons] at hlen
      omega
  | x :: xs, i + 1, 0, a, b, hlen, ha, hb, hpa, hpb => by
      exfalso
      simp only [nthOpt] at ha hb
      injection hb with hb
      have hpx : p x = true := by rw [hb]; exact hpb
      have hamem : a ∈ xs := nthOpt_mem xs i a ha
      have haf : a ∈ xs.filter p := List.mem_filter.mpr ⟨hamem, hpa⟩
      have hpos : 0 < (xs.filter p).length :=
        List.length_pos.mpr (List.ne_nil_of_mem haf)
      rw [List.filter_cons, hpx] at hlen
      simp only [if_true, List.length_cons] at hlen
      omega
  | x :: xs, i + 1, j + 1, a, b, hlen, ha, hb, hpa, hpb => by
      simp only [nthOpt] at ha hb
      rw [List.filter_cons] at hlen
      by_cases hpx : p x
      · exfalso
        rw [hpx] at hlen
        simp only [if_true, List.length_cons] at hlen
        have hamem : a ∈ xs := nthOpt_mem xs i a ha
        have haf : a ∈ xs.filter p := List.mem_filter.mpr ⟨hamem, hpa⟩
        have hpos : 0 < (xs.filter p).length :=
          List.length_pos.mpr (List.ne_nil_of_mem haf)
        omega
      · rw [Bool.not_eq_true] at hpx
        rw [hpx] at hlen
        simp only [Bool.false_eq_true, if_false] at hlen
        have := filter_le_one_nth p xs i j a b hlen ha hb hpa hpb
        omega

theorem mem_of_metaCleanup (e x : Elem) (l : List Elem) (h : x ∈ metaCleanup e l) : x ∈ l := by
  rw [metaCleanup] at h
  revert h
  split
  · exact id
  · split
    · exact id
    · intro h
      exact (List.mem_filter.mp h).1

theorem mem_nthOpt : ∀ (l : List Elem) (x : Elem), x ∈ l → ∃ j, nthOpt l j = some x
  | [], x, h => absurd h (List.not_mem_nil x)
  | y :: ys, x, h => by
      rcases List.mem_cons.mp h with hx | hx
      · exact ⟨0, by rw [hx]; simp [nthOpt]⟩
      · obtain ⟨j, hj⟩ := mem_nthOpt ys x hx
        exact ⟨j + 1, hj⟩

theorem mem_modifyAt_pos (e1 : Elem) :
    ∀ (l : List Elem) (i : Nat) (x : Elem), x ∈ modifyAt (fun _ => e1) i l →
      x = e1 ∨ ∃ j, j ≠ i ∧ nthOpt l j = some x
  | [], i, x, h => by cases i <;> simp [modifyAt] at h
  | y :: ys, 0, x, h => by
      rw [modifyAt] at h
      rcases List.mem_cons.mp h with hx | hx
      · exact Or.inl hx
      · obtain ⟨j, hj⟩ := mem_nthOpt ys x hx
        exact Or.inr ⟨j + 1, by omega, hj⟩
  | y :: ys, n + 1, x, h => by
      rw [modifyAt] at h
      rcases List.mem_cons.mp h with hx | hx
      · exact Or.inr ⟨0, by omega, by rw [hx]; simp [nthOpt]⟩
      · rcases mem_modifyAt_pos e1 ys n x hx with h1 | ⟨j, hj, hnth⟩
        · exact Or.inl h1
        · exact Or.inr ⟨j + 1, by omega, hnth⟩

theorem findIdxFrom_of_mem (p : Elem → Bool) :
    ∀ l : List Elem, (∃ x ∈ l, p x = true) →
      ∃ i e, findIdxFrom p l = some i ∧ nthOpt l i = some e ∧ p e = true
  | [], h => by simp at h
  | x :: xs, h => by
      by_cases hp : p x = true
      · exact ⟨0, x, by rw [findIdxFrom, if_pos hp], by simp [nthOpt], hp⟩
      · have hex : ∃ y ∈ xs, p y = true := by
          obtain ⟨y, hy, hpy⟩ := h
          rcases List.mem_cons.mp hy with hyx | hy2
          · exact absurd (hyx ▸ hpy) hp
          · exact ⟨y, hy2, hpy⟩
        obtain ⟨i, e, hfi, hni, hpe⟩ := findIdxFrom_of_mem p xs hex
        refine ⟨i + 1, e, ?_, by simpa [nthOpt] using hni, hpe⟩
        rw [findIdxFrom, if_neg hp, hfi]
        rfl

theorem modifyAt_self : ∀ (l : List Elem) (i : Nat) (e : Elem), nthOpt l i = some e →
    modifyAt (fun _ => e) i l = l
  | [], i, e, h => by cases i <;> simp [nthOpt] at h
  | x :: xs, 0, e, h => by
      simp only [nthOpt] at h
      injection h with h
      subst h
      simp [modifyAt]
  | x :: xs, n + 1, e, h => by
      simp only [nthOpt] at h
      rw [modifyAt, modifyAt_self xs n e h]

theorem metaCleanup_idem (e : Elem) (l : List Elem) :
    metaCleanup e (metaCleanup e l) = metaCleanup e l := by
  cases hid : getAttr e "id" with
  | none => exact metaCleanup_no_id e _ hid
  | some idv =>
      by_cases hne : idv = ""
      · simp only [metaCleanup, hid, if_pos hne]
      · simp only [metaCleanup, hid, if_neg hne]
        apply List.filter_eq_self.mpr
        intro a ha
        exact (List.mem_filter.mp ha).2

theorem delAttr_eq_self (e : Elem) (k : String) (h : getAttr e k = none) : delAttr e k = e := by
  rw [getAttr] at h
  have hfind : List.find? (fun p => p.1 == k) e.attrs = none := by
    cases hfind : List.find? (fun p => p.1 == k) e.attrs with
    | none => rfl
    | some q => rw [hfind] at h; exact absurd h (by simp)
  rw [delAttr]
  have hfilter : e.attrs.filter (fun p => p.1 != k) = e.attrs := by
    apply List.filter_eq_self.mpr
    intro p hp
    have hall := List.find?_eq_none.mp hfind p hp
    simpa using hall
  rw [hfilter]

theorem findIdxFrom_append_one (p : Elem → Bool) (y : Elem) (hy : p y = true) :
    ∀ l : List Elem, (∀ x ∈ l, p x = false) → findIdxFrom p (l ++ [y]) = some l.length
  | [], _ => by simp [findIdxFrom, hy]
  | x :: xs, h => by
      rw [List.cons_append, findIdxFrom]
      have hpx : p x = false := h x (List.mem_cons_self x xs)
      rw [hpx]
      simp only [Bool.false_eq_true, if_false]
      rw [findIdxFrom_append_one p y hy xs (fun z hz => h z (List.mem_cons_of_mem x hz))]
      simp

theorem nthOpt_append_length (y : Elem) : ∀ l : List Elem, nthOpt (l ++ [y]) l.length = some y
  | [] => rfl
  | x :: xs => by
      rw [List.cons_append, List.length_cons]
      simpa [nthOpt] using nthOpt_append_length y xs

theorem isSchemeIsbn_no_scheme (e : Elem) (h : getAttr e "opf:scheme" = none) :
    isSchemeIsbn e = false := by
  rw [isSchemeIsbn, h]
  simp

/-- Second application of the ISBN handling is the identity, given at most
one selectable identifier and a whitespace-clean formatted ISBN. -/
theorem updateIsbn_idem (isbn : String) (L1 : List Elem) (hi : isbn ≠ "")
    (hA1 : (L1.filter (isbnMatch (formatIsbn isbn).2 (formatIsbn isbn).1)).length ≤ 1)
    (hB : pyStripStr (formatIsbn isbn).1 = (formatIsbn isbn).1) :
    updateIsbn isbn (updateIsbn isbn L1) = updateIsbn isbn L1 := by
  cases hch : chooseIsbnIdx (formatIsbn isbn).2 (formatIsbn isbn).1 L1 with
  | some i =>
      obtain ⟨e0, hnth, hsel⟩ := chooseIsbnIdx_nth _ _ L1 i hch
      have htag0 : e0.tag = identTag := tag_of_isbnMatch _ _ _ hsel
      have hm0 : isbnMatch (formatIsbn isbn).2 (formatIsbn isbn).1 e0 = true := by
        rw [isbnMatch]
        rcases hsel with h | h
        · rw [h]; rfl
        · rw [h]; simp
      have hL2 : updateIsbn isbn L1 =
          metaCleanup (delAttr { e0 with text := (formatIsbn isbn).1 } "opf:scheme")
            (modifyAt
              (fun _ => delAttr { e0 with text := (formatIsbn isbn).1 } "opf:scheme") i L1) := by
        rw [updateIsbn, if_neg hi]
        simp only [hch, hnth]
      have he1tag : (delAttr { e0 with text := (formatIsbn isbn).1 } "opf:scheme").tag
          = identTag := htag0
      have he1text : (delAttr { e0 with text := (formatIsbn isbn).1 } "opf:scheme").text
          = (formatIsbn isbn).1 := rfl
      have he1scheme :
          getAttr (delAttr { e0 with text := (formatIsbn isbn).1 } "opf:scheme") "opf:scheme"
            = none := getAttr_delAttr _ _
      have he1mem : delAttr { e0 with text := (formatIsbn isbn).1 } "opf:scheme"
          ∈ updateIsbn isbn L1 := by
        rw [hL2]
        exact mem_metaCleanup _ _ _ (modifyAt_mem_of_nth _ _ _ _ hnth) he1tag
      have he1match : isTextMatch (formatIsbn isbn).2 (formatIsbn isbn).1
          (delAttr { e0 with text := (formatIsbn isbn).1 } "opf:scheme") = true := by
        rw [isTextMatch, he1tag, he1text, hB]
        simp [identTag]
      have hother : ∀ x ∈ updateIsbn isbn L1,
          isbnMatch (formatIsbn isbn).2 (formatIsbn isbn).1 x = true →
          x = delAttr { e0 with text := (formatIsbn isbn).1 } "opf:scheme" := by
        intro x hx hmx
        rw [hL2] at hx
        rcases mem_modifyAt_pos _ L1 i x (mem_of_metaCleanup _ x _ hx) with h1 | ⟨j, hji, hjnth⟩
        · exact h1
        · exact absurd (filter_le_one_nth _ L1 j i x e0 hA1 hjnth hnth hmx hm0) hji
      have hschemeNone : findIdxFrom isSchemeIsbn (updateIsbn isbn L1) = none := by
        rw [findIdxFrom_eq_none]
        intro x hx
        by_cases hs : isSchemeIsbn x = true
        · have hxm : isbnMatch (formatIsbn isbn).2 (formatIsbn isbn).1 x = true := by
            rw [isbnMatch, hs]; rfl
          rw [hother x hx hxm] at hs
          rw [isSchemeIsbn_no_scheme _ he1scheme] at hs
          exact absurd hs (by simp)
        · simpa using hs
      obtain ⟨i2, e2, hfi2, hni2, hpe2⟩ :=
        findIdxFrom_of_mem (isTextMatch (formatIsbn isbn).2 (formatIsbn isbn).1)
          (updateIsbn isbn L1)
          ⟨delAttr { e0 with text := (formatIsbn isbn).1 } "opf:scheme", he1mem, he1match⟩
      have he2 : e2 = delAttr { e0 with text := (formatIsbn isbn).1 } "opf:scheme" := by
        apply hother e2 (nthOpt_mem _ _ _ hni2)
        rw [isbnMatch, hpe2]
        simp
      rw [he2] at hni2
      have hch2 : chooseIsbnIdx (formatIsbn isbn).2 (formatIsbn isbn).1 (updateIsbn isbn L1)
          = some i2 := by
        rw [chooseIsbnIdx, hschemeNone, hfi2]
      conv_lhs => rw [updateIsbn, if_neg hi]
      simp only [hch2, hni2]
      have htexteq : ({ delAttr { e0 with text := (formatIsbn isbn).1 } "opf:scheme" with
          text := (formatIsbn isbn).1 } : Elem)
          = delAttr { e0 with text := (formatIsbn isbn).1 } "opf:scheme" := rfl
      rw [htexteq, delAttr_eq_self _ _ he1scheme]
      rw [modifyAt_self _ i2 _ hni2]
      rw [hL2]
      exact metaCleanup_idem _ _
  | none =>
      obtain ⟨hs1, ht1⟩ := chooseIsbnIdx_eq_none _ _ L1 hch
      have hall1 : ∀ x ∈ L1, isSchemeIsbn x = false := (findIdxFrom_eq_none _ _).mp hs1
      have hall2 : ∀ x ∈ L1, isTextMatch (formatIsbn isbn).2 (formatIsbn isbn).1 x = false :=
        (findIdxFrom_eq_none _ _).mp ht1
      have hL2 : updateIsbn isbn L1 =
          L1 ++ [⟨identTag, (formatIsbn isbn).1, []⟩] := by
        rw [updateIsbn, if_neg hi]
        simp only [hch]
        exact metaCleanup_no_id _ _ rfl
      have hnewmatch : isTextMatch (formatIsbn isbn).2 (formatIsbn isbn).1
          (⟨identTag, (formatIsbn isbn).1, []⟩ : Elem) = true := by
        rw [isTextMatch]
        show ((identTag == identTag) &&
          (pyStripStr (formatIsbn isbn).1 == (formatIsbn isbn).2 ||
           pyStripStr (formatIsbn isbn).1 == (formatIsbn isbn).1)) = true
        rw [hB]
        simp
      have hschemeNone : findIdxFrom isSchemeIsbn (updateIsbn isbn L1) = none := by
        rw [hL2, findIdxFrom_eq_none]
        intro x hx
        rcases List.mem_append.mp hx with hx | hx
        · exact hall1 x hx
        · have hxe : x = ⟨identTag, (formatIsbn isbn).1, []⟩ := by simpa using hx
          rw [hxe]
          apply isSchemeIsbn_no_scheme
          rfl
      have hfi2 : findIdxFrom (isTextMatch (formatIsbn isbn).2 (formatIsbn isbn).1)
          (updateIsbn isbn L1) = some L1.length := by
        rw [hL2]
        exact findIdxFrom_append_one _ _ hnewmatch L1 hall2
      have hni2 : nthOpt (updateIsbn isbn L1) L1.length =
          some ⟨identTag, (formatIsbn isbn).1, []⟩ := by
        rw [hL2]
        exact nthOpt_append_length _ L1
      have hch2 : chooseIsbnIdx (formatIsbn isbn).2 (formatIsbn isbn).1 (updateIsbn isbn L1)
          = some L1.length := by
        rw [chooseIsbnIdx, hschemeNone, hfi2]
      conv_lhs => rw [updateIsbn, if_neg hi]
      simp only [hch2, hni2]
      have hdel : delAttr (⟨identTag, (formatIsbn isbn).1, []⟩ : Elem) "opf:scheme" =
          (⟨identTag, (formatIsbn isbn).1, []⟩ : Elem) := rfl
      rw [hdel]
      rw [modifyAt_self _ L1.length _ hni2]
      exact metaCleanup_no_id _ _ rfl

/-- Two identifiers both carrying `opf:scheme="ISBN"`. -/
def idElemA : Elem := ⟨"dc:identifier", "AAA", [("opf:scheme", "ISBN")]⟩

/-- See `idElemA`. -/
def idElemB : Elem := ⟨"dc:identifier", "BBB", [("opf:scheme", "ISBN")]⟩

/-- C6 counterexample: with two `opf:scheme="ISBN"` identifiers, the first
call rewrites the first and strips its scheme, so the second call selects
the second identifier and rewrites it too — the descriptor after two
calls differs from the descriptor after one. -/
theorem C6_idempotence_counterexample :
    update_opf_children mdExample (update_opf_children mdExample [idElemA, idElemB]) ≠
      update_opf_children mdExample [idElemA, idElemB] := by decide

/-- C6 (amended). `updateMetadata` is idempotent on the metadata children
provided (a) at most one identifier is selectable by the ISBN handling
(by `opf:scheme="ISBN"` or by raw/URN text), and (b) the normalized ISBN
value carries no surrounding whitespace; in particular no duplicate
identifier or descriptive elements accumulate. -/
theorem C6_idempotence (l : List Elem) (md : MetadataRecord)
    (hA : (l.filter (isbnMatch (formatIsbn md.isbn).2 (formatIsbn md.isbn).1)).length ≤ 1)
    (hB : pyStripStr (formatIsbn md.isbn).1 = (formatIsbn md.isbn).1) :
    update_opf_children md (update_opf_children md l) = update_opf_children md l := by
  obtain ⟨h1, h2, h3, h4, h5⟩ := dcUpdates_fieldOk md l
  have hF1 := FieldOk_updateIsbn "dc:title" md.title md.isbn
    (by decide) (by decide) (by decide) _ h1
  have hF2 := FieldOk_updateIsbn "dc:creator" md.creator md.isbn
    (by decide) (by decide) (by decide) _ h2
  have hF3 := FieldOk_updateIsbn "dc:subject" md.subject md.isbn
    (by decide) (by decide) (by decide) _ h3
  have hF4 := FieldOk_updateIsbn "dc:publisher" md.publisher md.isbn
    (by decide) (by decide) (by decide) _ h4
  have hF5 := FieldOk_updateIsbn "dc:description" md.description md.isbn
    (by decide) (by decide) (by decide) _ h5
  have hDU : dcUpdates md (update_opf_children md l) = update_opf_children md l := by
    rw [update_opf_children_eq]
    exact dcUpdates_stable md _ hF1 hF2 hF3 hF4 hF5
  rw [update_opf_children_eq md (update_opf_children md l), hDU]
  by_cases hi : md.isbn = ""
  · rw [updateIsbn, if_pos hi]
  · rw [update_opf_children_eq md l]
    apply updateIsbn_idem md.isbn (dcUpdates md l) hi ?_ hB
    rw [filter_dcUpdates _ (fun e he => isbnMatch_ident _ _ e he) md l]
    exact hA

/-- Witness for C6: the amended hypotheses discharged on a concrete
descriptor with a single ISBN-scheme identifier. -/
theorem C6_idempotence_witness :
    update_opf_children mdExample (update_opf_children mdExample [elemEx]) =
      update_opf_children mdExample [elemEx] :=
  C6_idempotence [elemEx] mdExample (by decide) (by decide)

/-! ### MHTML decoding (`mhtml_parser.decode_mhtml`)

Bytes are `List Nat` (each below 256).  `quopri.decodestring` is
`binascii.a2b_qp`: `=XY` hex pairs decode, `=`-newline soft breaks vanish
(a bare `=\r` skips to the next newline), `==` yields a literal `=`, any
other `=`-sequence is kept literally, and a trailing `=` is dropped. -/

/-- The Unicode replacement character used by `errors='replace'`. -/
def replacementChar : Char := Char.ofNat 0xFFFD

/-- Hex digit test on a byte (`0-9A-Fa-f`). -/
def isHexByte (c : Nat) : Bool :=
  (decide (48 ≤ c) && decide (c ≤ 57)) || (decide (65 ≤ c) && decide (c ≤ 70)) ||
  (decide (97 ≤ c) && decide (c ≤ 102))

/-- Value of a hex digit byte. -/
def hexVal (c : Nat) : Nat :=
  if c ≤ 57 then c - 48 else if c ≤ 70 then c - 55 else c - 87

/-- Skip to just past the next LF (used for `=\r` soft breaks). -/
def dropToNl : List Nat → List Nat
  | [] => []
  | c :: t => if c = 10 then t else dropToNl t

theorem dropToNl_length_le : ∀ t : List Nat, (dropToNl t).length ≤ t.length
  | [] => Nat.le_refl 0
  | c :: t => by
      rw [dropToNl]
      by_cases hc : c = 10
      · rw [if_pos hc]
        simp
      · rw [if_neg hc]
        calc (dropToNl t).length ≤ t.length := dropToNl_length_le t
        _ ≤ (c :: t).length := by simp

/-- `binascii.a2b_qp(data)` (non-header mode), the body of
`quopri.decodestring`. -/
def a2b_qp : List Nat → List Nat
  | [] => []
  | 61 :: rest =>
      match rest with
      | [] => []
      | 10 :: t => a2b_qp t
      | 13 :: t => a2b_qp (dropToNl t)
      | 61 :: t => 61 :: a2b_qp t
      | c1 :: t =>
          match t with
          | c2 :: t2 =>
              if isHexByte c1 && isHexByte c2 then
                (16 * hexVal c1 + hexVal c2) :: a2b_qp t2
              else 61 :: a2b_qp (c1 :: c2 :: t2)
          | [] => 61 :: a2b_qp [c1]
  | c :: rest => c :: a2b_qp rest
termination_by l => l.length
decreasing_by
  all_goals simp only [List.length_cons]
  all_goals try omega
  have := dropToNl_length_le t
  omega

/-- The defined upper region (0x80-0x9F) of Windows-1252; `none` marks the
five unassigned bytes. -/
def cp1252Hi (b : Nat) : Option Nat :=
  match b with
  | 0x80 => some 0x20AC
  | 0x82 => some 0x201A
  | 0x83 => some 0x0192
  | 0x84 => some 0x201E
  | 0x85 => some 0x2026
  | 0x86 => some 0x2020
  | 0x87 => some 0x2021
  | 0x88 => some 0x02C6
  | 0x89 => some 0x2030
  | 0x8A => some 0x0160
  | 0x8B => some 0x2039
  | 0x8C => some 0x0152
  | 0x8E => some 0x017D
  | 0x91 => some 0x2018
  | 0x92 => some 0x2019
  | 0x93 => some 0x201C
  | 0x94 => some 0x201D
  | 0x95 => some 0x2022
  | 0x96 => some 0x2013
  | 0x97 => some 0x2014
  | 0x98 => some 0x02DC
  | 0x99 => some 0x2122
  | 0x9A => some 0x0161
  | 0x9B => some 0x203A
  | 0x9C => some 0x0153
  | 0x9E => some 0x017E
  | 0x9F => some 0x0178
  | _ => none

/-- `bytes.decode('windows-1252', errors='replace')`: total — every byte
maps to a character, the five unassigned bytes to the replacement
character. -/
def cp1252DecodeReplace (bs : List Nat) : List Char :=
  bs.map (fun b =>
    if b < 0x80 then Char.ofNat b
    else if 0xA0 ≤ b ∧ b ≤ 0xFF then Char.ofNat b
    else
      match cp1252Hi b with
      | some u => Char.ofNat u
      | none => replacementChar)

/-- `bytes.decode('utf-8', errors='replace')` (the dead second fallback):
a standard UTF-8 decoder replacing ill-formed sequences. -/
def utf8DecodeReplace : List Nat → List Char
  | [] => []
  | b :: bs =>
      if b < 0x80 then Char.ofNat b :: utf8DecodeReplace bs
      else if 0xC2 ≤ b ∧ b ≤ 0xDF then
        match bs with
        | b2 :: bs2 =>
            if 0x80 ≤ b2 ∧ b2 ≤ 0xBF then
              Char.ofNat ((b - 0xC0) * 64 + (b2 - 0x80)) :: utf8DecodeReplace bs2
            else replacementChar :: utf8DecodeReplace (b2 :: bs2)
        | [] => [replacementChar]
      else if 0xE0 ≤ b ∧ b ≤ 0xEF then
        match bs with
        | b2 :: bs2 =>
            if (0x80 ≤ b2 ∧ b2 ≤ 0xBF) ∧ (b ≠ 0xE0 ∨ 0xA0 ≤ b2) ∧ (b ≠ 0xED ∨ b2 ≤ 0x9F) then
              match bs2 with
              | b3 :: bs3 =>
                  if 0x80 ≤ b3 ∧ b3 ≤ 0xBF then
                    Char.ofNat ((b - 0xE0) * 4096 + (b2 - 0x80) * 64 + (b3 - 0x80)) ::
                      utf8DecodeReplace bs3
                  else replacementChar :: utf8DecodeReplace (b3 :: bs3)
              | [] => [replacementChar]
            else replacementChar :: utf8DecodeReplace (b2 :: bs2)
        | [] => [replacementChar]
      else if 0xF0 ≤ b ∧ b ≤ 0xF4 then
        match bs with
        | b2 :: bs2 =>
            if (0x80 ≤ b2 ∧ b2 ≤ 0xBF) ∧ (b ≠ 0xF0 ∨ 0x90 ≤ b2) ∧ (b ≠ 0xF4 ∨ b2 ≤ 0x8F) then
              match bs2 with
              | b3 :: bs3 =>
                  if 0x80 ≤ b3 ∧ b3 ≤ 0xBF then
                    match bs3 with
                    | b4 :: bs4 =>
                        if 0x80 ≤ b4 ∧ b4 ≤ 0xBF then
                          Char.ofNat ((b - 0xF0) * 262144 + (b2 - 0x80) * 4096 +
                            (b3 - 0x80) * 64 + (b4 - 0x80)) :: utf8DecodeReplace bs4
                        else replacementChar :: utf8DecodeReplace (b4 :: bs4)
                    | [] => [replacementChar]
                  else replacementChar :: utf8DecodeReplace (b3 :: bs3)
              | [] => [replacementChar]
            else replacementChar :: utf8DecodeReplace (b2 :: bs2)
        | [] => [replacementChar]
      else replacementChar :: utf8DecodeReplace bs

/-- Codecs reachable in `decode_mhtml`: the legacy Western default, UTF-8,
or a declared charset Python has no codec for (`LookupError`). -/
inductive Codec where
  | cp1252
  | utf8
  | unknownCodec
deriving DecidableEq

/-- `payload.decode(codec, errors='replace')`: total for the two known
codecs, a `LookupError` for an unknown charset name. -/
def strDecodeReplace : Codec → List Nat → Except String (List Char)
  | Codec.cp1252, bs => Except.ok (cp1252DecodeReplace bs)
  | Codec.utf8, bs => Except.ok (utf8DecodeReplace bs)
  | Codec.unknownCodec, _ => Except.error "LookupError"

/-- Outcome of the MIME walk in the `try` block of `decode_mhtml`: the
parse raises, no `text/html` part is found, or a part is found with
payload bytes and an optional declared charset. -/
inductive MimeOutcome where
  | raisesDuringParse
  | noHtmlPart
  | htmlPart (payload : List Nat) (charset : Option Codec)

/-- `decode_mhtml`: try the MIME path (declared charset, defaulting to the
legacy Western one); on any failure — exception or no HTML part — decode
the whole raw input as quoted-printable with the legacy Western charset,
falling back to a permissive UTF-8 decode of the same bytes if that
decode were to fail. -/
def decode_mhtml (mime : MimeOutcome) (raw : List Nat) : Except String (List Char) :=
  let mimeTry : Except String (List Char) :=
    match mime with
    | MimeOutcome.raisesDuringParse => Except.error "mime parse error"
    | MimeOutcome.noHtmlPart => Except.error "no html part"
    | MimeOutcome.htmlPart payload charset =>
        strDecodeReplace (charset.getD Codec.cp1252) payload
  match mimeTry with
  | Except.ok s => Except.ok s
  | Except.error _ =>
      let decoded := a2b_qp raw
      match strDecodeReplace Codec.cp1252 decoded with
      | Except.ok s => Except.ok s
      | Except.error _ => strDecodeReplace Codec.utf8 decoded

/-- C4. `decode_mhtml` always returns a string and never raises: the
cp1252-with-replacement decode is total, so the fallback chain cannot
fail; whenever the MIME path fails — a parse exception, no HTML part, or
an unknown declared charset — the result is the quoted-printable decode
of the whole raw input interpreted as Windows-1252 with undecodable
bytes replaced. -/
theorem C4_decode_never_raises :
    (∀ (mime : MimeOutcome) (raw : List Nat), ∃ s, decode_mhtml mime raw = Except.ok s) ∧
    (∀ raw : List Nat,
      decode_mhtml MimeOutcome.raisesDuringParse raw =
        Except.ok (cp1252DecodeReplace (a2b_qp raw)) ∧
      decode_mhtml MimeOutcome.noHtmlPart raw =
        Except.ok (cp1252DecodeReplace (a2b_qp raw)) ∧
      ∀ payload : List Nat,
        decode_mhtml (MimeOutcome.htmlPart payload (some Codec.unknownCodec)) raw =
          Except.ok (cp1252DecodeReplace (a2b_qp raw))) ∧
    (∀ (payload : List Nat) (raw : List Nat),
      decode_mhtml (MimeOutcome.htmlPart payload none) raw =
        Except.ok (cp1252DecodeReplace payload)) := by
  refine ⟨?_, fun raw => ⟨rfl, rfl, fun payload => rfl⟩, fun payload raw => rfl⟩
  intro mime raw
  cases mime with
  | raisesDuringParse => exact ⟨_, rfl⟩
  | noHtmlPart => exact ⟨_, rfl⟩
  | htmlPart payload charset =>
      cases charset with
      | none => exact ⟨_, rfl⟩
      | some c =>
          cases c with
          | cp1252 => exact ⟨_, rfl⟩
          | utf8 => exact ⟨_, rfl⟩
          | unknownCodec => exact ⟨_, rfl⟩

/-! ### Marker stripping (`integrity_checker.get_mark_patterns` / `count_characters`)

The strip pattern for a glyph `g` is
`<p[^>]*style\s*=\s*["\']text-align:\s*center;?["\'][^>]*>\s*g\s*</p>\s*`
(case-insensitive, `re.sub` with empty replacement).  None of its atoms
before the literal `>` can consume a `>` — the two `[^>]*` classes
exclude it and the letters, `=`, quotes, `;` and whitespace are not `>` —
so a match starting at `<p` extends its opening-tag part exactly to the
first `>` after the start, and the interior must contain
`style\s*=\s*["\']text-align:\s*center;?["\']` somewhere before that `>`.
After the `>`, the greedy `\s*` runs are forced (each is followed by a
non-whitespace literal) and the final `\s*` is maximal.  Python's
backtracking search therefore collapses to the deterministic scanner
below; its leftmost-match `re.sub` loop is `stripMarks`. -/

/-- Index of the first `>`. -/
def firstGtIdx : List Char → Option Nat
  | [] => none
  | c :: cs => if c = '>' then some 0 else (firstGtIdx cs).map (· + 1)

/-- The `["\']` class. -/
def quoteCh (c : Char) : Bool := c == '"' || c == '\''

/-- After a `style` occurrence: `\s*=\s*["\']text-align:\s*center;?["\']`
(each whitespace run is maximal since the following literal is not
whitespace, and the optional `;` is forced likewise). -/
def styleTail (s : List Char) : Bool :=
  match s.drop (runLen isPySpace s) with
  | '=' :: s2 =>
      match s2.drop (runLen isPySpace s2) with
      | q1 :: s4 =>
          quoteCh q1 &&
          (ciPrefix "text-align:".toList s4 &&
            (let s5 := s4.drop 11
             let s6 := s5.drop (runLen isPySpace s5)
             ciPrefix "center".toList s6 &&
               (let s7 := s6.drop 6
                let s8 := match s7 with
                  | ';' :: r => r
                  | _ => s7
                match s8 with
                | q2 :: _ => quoteCh q2
                | [] => false)))
      | [] => false
  | _ => false

/-- Search the opening tag's interior (the text before its first `>`) for
a `style` occurrence followed by the attribute structure. -/
def styleScan : List Char → Bool
  | [] => false
  | c :: rest =>
      (ciPrefix "style".toList (c :: rest) && styleTail ((c :: rest).drop 5)) || styleScan rest

/-- The glyph-and-closing part of the pattern, after the leading `\s*`
run: `g\s*</p>\s*`; returns the consumed length. -/
def tailRest (g : Char) : List Char → Option Nat
  | [] => none
  | gc :: tail2 =>
      if ciEq g gc then
        let w2 := runLen isPySpace tail2
        let tail3 := tail2.drop w2
        if ciPrefix "</p>".toList tail3 then
          some (1 + w2 + 4 + runLen isPySpace (tail3.drop 4))
        else none
      else none

/-- The part of the pattern after the opening tag's `>`:
`\s*g\s*</p>\s*`; returns the consumed length. -/
def tailEval (g : Char) (tail1 : List Char) : Option Nat :=
  (tailRest g (tail1.drop (runLen isPySpace tail1))).map
    (fun r => runLen isPySpace tail1 + r)

/-- Match of the whole strip pattern at the head of `s`; returns the
matched length (the span `re.sub` removes). -/
def markMatchAt (g : Char) (s : List Char) : Option Nat :=
  match s with
  | c0 :: c1 :: rest =>
      if c0 == '<' && ciEq 'p' c1 then
        (firstGtIdx rest).bind (fun t =>
          if styleScan (rest.take t) then
            (tailEval g (rest.drop (t + 1))).map (fun r => 2 + t + 1 + r)
          else none)
      else none
  | _ => none

/-- One `re.sub(pattern, '', content)` pass: remove every non-overlapping
leftmost match (fuelled by the string length; every match is nonempty, so
the fuel suffices). -/
def stripMarksF (g : Char) : Nat → List Char → List Char
  | 0, s => s
  | _ + 1, [] => []
  | f + 1, c :: cs =>
      match markMatchAt g (c :: cs) with
      | some L => stripMarksF g f (cs.drop (L - 1))
      | none => c :: stripMarksF g f cs

/-- `re.sub` of one glyph's pattern with the empty replacement. -/
def stripMarks (g : Char) (s : List Char) : List Char := stripMarksF g s.length s

/-- `count_characters(content, exclude_marks)`: strip every platform's
marker pattern in `PLATFORM_MARKS` order, then count. -/
def count_characters (content : List Char) (excludeMarks : Bool) : Nat :=
  if excludeMarks then
    (markGlyphs.foldl (fun acc g => stripMarks g acc) content).length
  else content.length

/-- Sum of `count_characters` over the documents of a content tree. -/
def count_tree (docs : List (List Char)) (excludeMarks : Bool) : Nat :=
  (docs.map (fun d => count_characters d excludeMarks)).sum

/-- Mark the selected documents of a tree with one platform's glyph. -/
def markTree (tree : List (List Char × Bool)) (g : Char) : List (List Char) :=
  tree.map (fun fd => if fd.2 then (insert_watermark fd.1 g).1 else fd.1)

/-- The marker template's opening tag without its leading `<p`
(29 characters ending in `>`). -/
def markA : List Char := " style=\"text-align: center;\">".toList

/-- Whether the list contains a `>`. -/
def hasGt : List Char → Bool
  | [] => false
  | c :: cs => c == '>' || hasGt cs

/-- Every case-insensitive `<p` occurrence is followed by a `>` later in
the same list (so no opening-tag match can reach past its end). -/
def closedPs : List Char → Bool
  | c0 :: c1 :: rest =>
      (!(c0 == '<' && ciEq 'p' c1) || hasGt rest) && closedPs (c1 :: rest)
  | _ => true

/-- A suffix shape that no strip-pattern token crossing into it can
distinguish: it starts with a (case-insensitive) `<` that is not the
start of a `</p>` literal. -/
def suffOk (X : List Char) : Bool :=
  match X with
  | c :: cs => ciEq '<' c && !(isPySpace c) && !(ciPrefix "</p>".toList (c :: cs))
  | [] => false

/-- The sequential `re.sub` passes of `count_characters`, one per glyph. -/
def stripAll (gs : List Char) (X : List Char) : List Char :=
  gs.foldl (fun acc g' => stripMarks g' acc) X

/-- The index at which `insert_watermark` inserts the marker block, when
it inserts at all. -/
def insertionPoint (s : List Char) : Option Nat :=
  match findDivBody s with
  | some j => some j
  | none => findBody s

/-- Cleanliness of a document at a prospective insertion index `j`: every
`<p` opened before `j` is also closed before `j`, and no glyph's strip
pattern matches anywhere before `j`. -/
def cleanAt (s : List Char) (j : Nat) : Prop :=
  closedPs (s.take j) = true ∧
  ∀ g' ∈ markGlyphs, ∀ i, i < j → markMatchAt g' (s.drop i) = none

instance (s : List Char) (j : Nat) : Decidable (cleanAt s j) := by
  unfold cleanAt; infer_instance

/-- A document is clean when it is clean at its actual insertion point
(vacuously so when no insertion happens). -/
def cleanDoc (s : List Char) : Prop :=
  match insertionPoint s with
  | some j => cleanAt s j
  | none => True

instance (s : List Char) : Decidable (cleanDoc s) := by
  unfold cleanDoc
  cases insertionPoint s
  · exact inferInstanceAs (Decidable True)
  · exact inferInstanceAs (Decidable (cleanAt _ _))

/-- A document with an unclosed `<p` tag just before `</body>`. -/
def cexDoc : List Char := "<p style=\"text-align: center;\"</body>".toList

/-- C1 counterexample: inserting the amazon glyph into `cexDoc` makes the
inserted block merge with the document's unclosed `<p ... style ...` text
into one larger strip-pattern match, so the marker-insensitive count
drops from 37 to 7 instead of staying equal. -/
theorem C1_count_counterexample :
    count_tree (markTree [(cexDoc, true)] '▲') true = 7 ∧
    count_tree [cexDoc] true = 37 := by decide

theorem runLen_le_length (p : Char → Bool) : ∀ s : List Char, runLen p s ≤ s.length
  | [] => by simp [runLen]
  | c :: cs => by
      rw [runLen]
      split
      · simpa using runLen_le_length p cs
      · simp

theorem runLen_append_right (p : Char → Bool) :
    ∀ (v X : List Char), runLen p X = 0 → runLen p (v ++ X) = runLen p v
  | [], X, h => by simpa using h
  | c :: v', X, h => by
      rw [List.cons_append, runLen, runLen, runLen_append_right p v' X h]

theorem firstGtIdx_of_hasGt : ∀ l : List Char, hasGt l = true → ∃ t, firstGtIdx l = some t
  | [], h => by simp [hasGt] at h
  | c :: cs, h => by
      rw [hasGt, Bool.or_eq_true] at h
      by_cases hc : c = '>'
      · exact ⟨0, by simp [firstGtIdx, hc]⟩
      · have hcs : hasGt cs = true := by
          cases h with
          | inl h => exact absurd (by simpa using h) hc
          | inr h => exact h
        obtain ⟨t, ht⟩ := firstGtIdx_of_hasGt cs hcs
        exact ⟨t + 1, by simp [firstGtIdx, hc, ht]⟩

theorem firstGtIdx_lt : ∀ (l : List Char) (t : Nat), firstGtIdx l = some t → t < l.length
  | [], t, h => by simp [firstGtIdx] at h
  | c :: cs, t, h => by
      rw [firstGtIdx] at h
      split at h
      · simp only [Option.some_inj] at h
        simp [← h]
      · cases hf : firstGtIdx cs with
        | none => rw [hf] at h; simp at h
        | some t' =>
            rw [hf] at h
            simp only [Option.map_some', Option.some_inj] at h
            have := firstGtIdx_lt cs t' hf
            simp only [List.length_cons]
            omega

theorem firstGtIdx_append : ∀ (l X : List Char) (t : Nat),
    firstGtIdx l = some t → firstGtIdx (l ++ X) = some t
  | [], X, t, h => by simp [firstGtIdx] at h
  | c :: cs, X, t, h => by
      rw [firstGtIdx] at h
      rw [List.cons_append, firstGtIdx]
      split at h
      · rw [if_pos ‹c = '>'›]; exact h
      · rw [if_neg ‹¬ c = '>'›]
        cases hf : firstGtIdx cs with
        | none => rw [hf] at h; simp at h
        | some t' =>
            rw [hf] at h
            simp only [Option.map_some', Option.some_inj] at h
            rw [firstGtIdx_append cs X t' hf]
            simpa using h

theorem closedPs_head (c0 c1 : Char) (rest : List Char)
    (h : closedPs (c0 :: c1 :: rest) = true) :
    (c0 == '<' && ciEq 'p' c1) = true → hasGt rest = true := by
  rw [closedPs, Bool.and_eq_true] at h
  intro hc
  have h1 := h.1
  rw [hc] at h1
  simpa using h1

theorem closedPs_drop : ∀ (P : List Char), closedPs P = true → ∀ i, closedPs (P.drop i) = true
  | P, h, 0 => by simpa using h
  | [], _, i + 1 => by simp [closedPs]
  | [c], _, i + 1 => by cases i <;> simp [closedPs]
  | c0 :: c1 :: rest, h, i + 1 => by
      rw [closedPs, Bool.and_eq_true] at h
      exact closedPs_drop (c1 :: rest) h.2 i

theorem isPySpace_of_upper (c : Char) (h1 : 'A' ≤ c) (h2 : c ≤ 'Z') : isPySpace c = false := by
  rw [Char.le_def, UInt32.le_def] at h1 h2
  have e1 : (65 : Nat) ≤ c.toNat := h1
  have e2 : c.toNat ≤ 90 := h2
  simp only [isPySpace, Bool.or_eq_false_iff, Bool.and_eq_false_iff,
    decide_eq_false_iff_not, not_le, beq_eq_false_iff_ne, ne_eq]
  omega

theorem isPySpace_of_pyLower_lt (c : Char) (h : pyLower c = '<') : isPySpace c = false := by
  by_cases hr : 'A' ≤ c ∧ c ≤ 'Z'
  · exact isPySpace_of_upper c hr.1 hr.2
  · rw [pyLower, if_neg hr] at h
    subst h
    decide

theorem ciEq_congr_right (a c : Char) (h : pyLower c = '<') : ciEq a c = ciEq a '<' := by
  unfold ciEq
  rw [h, show pyLower '<' = '<' from by decide]

theorem suffOk_dest (X : List Char) (h : suffOk X = true) :
    ∃ c cs, X = c :: cs ∧ pyLower c = '<' ∧ isPySpace c = false ∧
      ciPrefix "</p>".toList X = false := by
  cases X with
  | nil => simp [suffOk] at h
  | cons c cs =>
      rw [suffOk] at h
      simp only [Bool.and_eq_true, Bool.not_eq_true'] at h
      obtain ⟨⟨h1, h2⟩, h3⟩ := h
      refine ⟨c, cs, rfl, ?_, h2, h3⟩
      simp only [ciEq] at h1
      have e := eq_of_beq h1
      rw [show pyLower '<' = '<' from by decide] at e
      exact e.symm

theorem ciPrefix_append_left : ∀ (p l X : List Char), p.length ≤ l.length →
    ciPrefix p (l ++ X) = ciPrefix p l
  | [], l, X, _ => by simp [ciPrefix]
  | a :: as, [], X, h => by simp at h
  | a :: as, b :: bs, X, h => by
      rw [List.cons_append, ciPrefix, ciPrefix,
        ciPrefix_append_left as bs X (by simpa using h)]

theorem ciPrefix_of_append : ∀ (p q s : List Char),
    ciPrefix (p ++ q) s = true → ciPrefix p s = true
  | [], q, s, _ => by simp [ciPrefix]
  | a :: as, q, [], h => by rw [List.cons_append, ciPrefix] at h; exact h
  | a :: as, q, b :: bs, h => by
      rw [List.cons_append, ciPrefix, Bool.and_eq_true] at h
      rw [ciPrefix, Bool.and_eq_true]
      exact ⟨h.1, ciPrefix_of_append as q bs h.2⟩

theorem suffOk_of_suffB (S : List Char) (h : ciPrefix "</b".toList S = true) :
    suffOk S = true := by
  match S with
  | [] => simp [ciPrefix] at h
  | [c0] => simp [ciPrefix] at h
  | [c0, c1] => simp [ciPrefix] at h
  | c0 :: c1 :: c2 :: S' =>
      simp only [show "</b".toList = ['<', '/', 'b'] from rfl, ciPrefix,
        Bool.and_eq_true] at h
      obtain ⟨h0, h1, h2, -⟩ := h
      have hl0 : pyLower c0 = '<' := by
        simp only [ciEq] at h0
        have e := eq_of_beq h0
        rw [show pyLower '<' = '<' from by decide] at e
        exact e.symm
      have hl2 : pyLower c2 = 'b' := by
        simp only [ciEq] at h2
        have e := eq_of_beq h2
        rw [show pyLower 'b' = 'b' from by decide] at e
        exact e.symm
      rw [suffOk]
      simp only [Bool.and_eq_true, Bool.not_eq_true']
      refine ⟨⟨h0, isPySpace_of_pyLower_lt c0 hl0⟩, ?_⟩
      have hp2 : ciEq 'p' c2 = false := by
        simp only [ciEq, hl2]
        decide
      simp [show "</p>".toList = ['<', '/', 'p', '>'] from rfl, ciPrefix, hp2]

theorem tailRest_transfer (g : Char) (hgq : ciEq g '<' = false)
    (v1 X Y : List Char) (hX : suffOk X = true) (hY : suffOk Y = true) :
    tailRest g (v1 ++ X) = tailRest g (v1 ++ Y) := by
  obtain ⟨x, xs, hXe, hxl, hxs, hxp⟩ := suffOk_dest X hX
  obtain ⟨y, ys, hYe, hyl, hys, hyp⟩ := suffOk_dest Y hY
  have hX0 : runLen isPySpace X = 0 := by rw [hXe]; simp [runLen, hxs]
  have hY0 : runLen isPySpace Y = 0 := by rw [hYe]; simp [runLen, hys]
  cases v1 with
  | nil =>
      simp only [List.nil_append]
      rw [hXe, hYe]
      have hgx : ciEq g x = false := by rw [ciEq_congr_right g x hxl]; exact hgq
      have hgy : ciEq g y = false := by rw [ciEq_congr_right g y hyl]; exact hgq
      simp [tailRest, hgx, hgy]
  | cons c v2 =>
      simp only [List.cons_append]
      cases hgc : ciEq g c with
      | false => simp [tailRest, hgc]
      | true =>
          have hw2X : runLen isPySpace (v2 ++ X) = runLen isPySpace v2 :=
            runLen_append_right _ _ _ hX0
          have hw2Y : runLen isPySpace (v2 ++ Y) = runLen isPySpace v2 :=
            runLen_append_right _ _ _ hY0
          have hw2le : runLen isPySpace v2 ≤ v2.length := runLen_le_length _ _
          simp only [tailRest, hgc, if_true]
          rw [hw2X, hw2Y, List.drop_append_of_le_length hw2le,
            List.drop_append_of_le_length hw2le]
          generalize v2.drop (runLen isPySpace v2) = v3
          match v3 with
          | [] =>
              simp only [List.nil_append]
              rw [hxp, hyp]
              rfl
          | [a] =>
              have hcX : ciPrefix "</p>".toList ([a] ++ X) = false := by
                rw [hXe]
                have hax : ciEq '/' x = false := by
                  rw [ciEq_congr_right '/' x hxl]; decide
                simp [show "</p>".toList = ['<', '/', 'p', '>'] from rfl, ciPrefix, hax]
              have hcY : ciPrefix "</p>".toList ([a] ++ Y) = false := by
                rw [hYe]
                have hay : ciEq '/' y = false := by
                  rw [ciEq_congr_right '/' y hyl]; decide
                simp [show "</p>".toList = ['<', '/', 'p', '>'] from rfl, ciPrefix, hay]
              rw [hcX, hcY]
              rfl
          | [a, b] =>
              have hcX : ciPrefix "</p>".toList ([a, b] ++ X) = false := by
                rw [hXe]
                have hax : ciEq 'p' x = false := by
                  rw [ciEq_congr_right 'p' x hxl]; decide
                simp [show "</p>".toList = ['<', '/', 'p', '>'] from rfl, ciPrefix, hax]
              have hcY : ciPrefix "</p>".toList ([a, b] ++ Y) = false := by
                rw [hYe]
                have hay : ciEq 'p' y = false := by
                  rw [ciEq_congr_right 'p' y hyl]; decide
                simp [show "</p>".toList = ['<', '/', 'p', '>'] from rfl, ciPrefix, hay]
              rw [hcX, hcY]
              rfl
          | [a, b, c'] =>
              have hcX : ciPrefix "</p>".toList ([a, b, c'] ++ X) = false := by
                rw [hXe]
                have hax : ciEq '>' x = false := by
                  rw [ciEq_congr_right '>' x hxl]; decide
                simp [show "</p>".toList = ['<', '/', 'p', '>'] from rfl, ciPrefix, hax]
              have hcY : ciPrefix "</p>".toList ([a, b, c'] ++ Y) = false := by
                rw [hYe]
                have hay : ciEq '>' y = false := by
                  rw [ciEq_congr_right '>' y hyl]; decide
                simp [show "</p>".toList = ['<', '/', 'p', '>'] from rfl, ciPrefix, hay]
              rw [hcX, hcY]
              rfl
          | a :: b :: c' :: d :: v4 =>
              have hlen : ("</p>".toList).length ≤ (a :: b :: c' :: d :: v4).length := by
                simp only [show ("</p>".toList).length = 4 from rfl, List.length_cons]
                omega
              rw [ciPrefix_append_left _ _ X hlen, ciPrefix_append_left _ _ Y hlen]
              cases hcp : ciPrefix "</p>".toList (a :: b :: c' :: d :: v4) with
              | false => simp [hcp]
              | true =>
                  simp only [hcp, if_true, List.cons_append, List.drop_succ_cons,
                    List.drop_zero]
                  rw [runLen_append_right _ v4 X hX0, runLen_append_right _ v4 Y hY0]

theorem tailEval_transfer (g : Char) (hgq : ciEq g '<' = false)
    (v X Y : List Char) (hX : suffOk X = true) (hY : suffOk Y = true) :
    tailEval g (v ++ X) = tailEval g (v ++ Y) := by
  obtain ⟨x, xs, hXe, -, hxs, -⟩ := suffOk_dest X hX
  obtain ⟨y, ys, hYe, -, hys, -⟩ := suffOk_dest Y hY
  have hX0 : runLen isPySpace X = 0 := by rw [hXe]; simp [runLen, hxs]
  have hY0 : runLen isPySpace Y = 0 := by rw [hYe]; simp [runLen, hys]
  have hwle : runLen isPySpace v ≤ v.length := runLen_le_length _ _
  unfold tailEval
  rw [runLen_append_right _ v X hX0, runLen_append_right _ v Y hY0,
    List.drop_append_of_le_length hwle, List.drop_append_of_le_length hwle,
    tailRest_transfer g hgq (v.drop (runLen isPySpace v)) X Y hX hY]

theorem markMatchAt_transfer (g : Char) (hgq : ciEq g '<' = false)
    (u X Y : List Char) (hX : suffOk X = true) (hY : suffOk Y = true) (hu : u ≠ [])
    (hgt : ∀ c0 c1 rest, u = c0 :: c1 :: rest → (c0 == '<' && ciEq 'p' c1) = true →
      hasGt rest = true) :
    markMatchAt g (u ++ X) = markMatchAt g (u ++ Y) := by
  obtain ⟨x, xs, hXe, hxl, -, -⟩ := suffOk_dest X hX
  obtain ⟨y, ys, hYe, hyl, -, -⟩ := suffOk_dest Y hY
  cases u with
  | nil => exact absurd rfl hu
  | cons c0 u' =>
      cases u' with
      | nil =>
          simp only [List.singleton_append]
          rw [hXe, hYe]
          have hpx : ciEq 'p' x = false := by rw [ciEq_congr_right 'p' x hxl]; decide
          have hpy : ciEq 'p' y = false := by rw [ciEq_congr_right 'p' y hyl]; decide
          simp [markMatchAt, hpx, hpy]
      | cons c1 rest =>
          simp only [List.cons_append]
          cases hcond : (c0 == '<' && ciEq 'p' c1) with
          | false => simp [markMatchAt, hcond]
          | true =>
              have hrest : hasGt rest = true := hgt c0 c1 rest rfl hcond
              obtain ⟨t, ht⟩ := firstGtIdx_of_hasGt rest hrest
              have htlt := firstGtIdx_lt rest t ht
              have ht1le : t + 1 ≤ rest.length := htlt
              have htle : t ≤ rest.length := le_of_lt htlt
              simp only [markMatchAt, hcond, if_true]
              rw [firstGtIdx_append rest X t ht, firstGtIdx_append rest Y t ht]
              simp only [Option.some_bind]
              rw [List.take_append_of_le_length htle, List.take_append_of_le_length htle]
              cases hsc : styleScan (rest.take t) with
              | false => simp [hsc]
              | true =>
                  simp only [hsc, if_true]
                  rw [List.drop_append_of_le_length ht1le,
                    List.drop_append_of_le_length ht1le,
                    tailEval_transfer g hgq (rest.drop (t + 1)) X Y hX hY]

theorem transfer_at (g : Char) (hgq : ciEq g '<' = false) (P X Y : List Char)
    (hcl : closedPs P = true) (hX : suffOk X = true) (hY : suffOk Y = true)
    (i : Nat) (hi : i < P.length) :
    markMatchAt g ((P ++ X).drop i) = markMatchAt g ((P ++ Y).drop i) := by
  rw [List.drop_append_of_le_length (le_of_lt hi),
    List.drop_append_of_le_length (le_of_lt hi)]
  refine markMatchAt_transfer g hgq (P.drop i) X Y hX hY ?_ ?_
  · intro hnil
    have := congrArg List.length hnil
    simp only [List.length_drop, List.length_nil] at this
    omega
  · intro c0 c1 rest heq hcond
    have hd := closedPs_drop P hcl i
    rw [heq] at hd
    exact closedPs_head c0 c1 rest hd hcond

theorem stripMarksF_fuel (g : Char) : ∀ (f1 : Nat) (s : List Char) (f2 : Nat),
    s.length ≤ f1 → s.length ≤ f2 → stripMarksF g f1 s = stripMarksF g f2 s
  | 0, s, f2, h1, _ => by
      have hs : s = [] := List.length_eq_zero.mp (Nat.le_zero.mp h1)
      subst hs
      cases f2 <;> rfl
  | f + 1, s, f2, h1, h2 => by
      cases s with
      | nil => cases f2 <;> rfl
      | cons c cs =>
          cases f2 with
          | zero => simp at h2
          | succ f2' =>
              simp only [List.length_cons] at h1 h2
              cases hm : markMatchAt g (c :: cs) with
              | some L =>
                  simp only [stripMarksF, hm]
                  exact stripMarksF_fuel g f (cs.drop (L - 1)) f2'
                    (by rw [List.length_drop]; omega) (by rw [List.length_drop]; omega)
              | none =>
                  simp only [stripMarksF, hm]
                  rw [stripMarksF_fuel g f cs f2' (by omega) (by omega)]

theorem stripMarks_cons_none (g c : Char) (cs : List Char)
    (h : markMatchAt g (c :: cs) = none) :
    stripMarks g (c :: cs) = c :: stripMarks g cs := by
  rw [stripMarks, stripMarks]
  simp only [List.length_cons]
  simp only [stripMarksF, h]

theorem stripMarks_cons_some (g c : Char) (cs : List Char) (L : Nat)
    (h : markMatchAt g (c :: cs) = some L) :
    stripMarks g (c :: cs) = stripMarks g (cs.drop (L - 1)) := by
  rw [stripMarks, stripMarks]
  simp only [List.length_cons]
  simp only [stripMarksF, h]
  exact stripMarksF_fuel g cs.length (cs.drop (L - 1)) (cs.drop (L - 1)).length
    (by rw [List.length_drop]; omega) (le_refl _)

theorem stripMarks_append_none (g : Char) : ∀ (P S : List Char),
    (∀ i, i < P.length → markMatchAt g ((P ++ S).drop i) = none) →
    stripMarks g (P ++ S) = P ++ stripMarks g S
  | [], S, _ => by simp
  | c :: P', S, h => by
      have h0 : markMatchAt g (c :: (P' ++ S)) = none := by
        have := h 0 (by simp)
        simpa using this
      rw [List.cons_append, stripMarks_cons_none g c (P' ++ S) h0,
        stripMarks_append_none g P' S (fun i hi => by
          have := h (i + 1) (by simp only [List.length_cons]; omega)
          simpa using this),
        List.cons_append]

theorem markMatchAt_head_ne (g c : Char) (s : List Char) (h : (c == '<') = false) :
    markMatchAt g (c :: s) = none := by
  cases s with
  | nil => rfl
  | cons c1 rest => simp [markMatchAt, h]

theorem stripMarks_suffB (g : Char) (S : List Char)
    (h : ciPrefix "</b".toList S = true) :
    ciPrefix "</b".toList (stripMarks g S) = true := by
  match S with
  | [] => simp [ciPrefix] at h
  | [c0] => simp [ciPrefix] at h
  | [c0, c1] => simp [ciPrefix] at h
  | c0 :: c1 :: c2 :: S' =>
      simp only [show "</b".toList = ['<', '/', 'b'] from rfl, ciPrefix,
        Bool.and_eq_true] at h
      obtain ⟨h0, h1, h2, -⟩ := h
      have hl0 : pyLower c0 = '<' := by
        simp only [ciEq] at h0
        have e := eq_of_beq h0
        rw [show pyLower '<' = '<' from by decide] at e
        exact e.symm
      have hl1 : pyLower c1 = '/' := by
        simp only [ciEq] at h1
        have e := eq_of_beq h1
        rw [show pyLower '/' = '/' from by decide] at e
        exact e.symm
      have hl2 : pyLower c2 = 'b' := by
        simp only [ciEq] at h2
        have e := eq_of_beq h2
        rw [show pyLower 'b' = 'b' from by decide] at e
        exact e.symm
      have hm0 : markMatchAt g (c0 :: c1 :: c2 :: S') = none := by
        have hp1 : ciEq 'p' c1 = false := by
          simp only [ciEq, hl1]; decide
        simp [markMatchAt, hp1]
      have hne1 : (c1 == '<') = false := by
        cases hb : c1 == '<' with
        | false => rfl
        | true => rw [eq_of_beq hb] at hl1; exact absurd hl1 (by decide)
      have hne2 : (c2 == '<') = false := by
        cases hb : c2 == '<' with
        | false => rfl
        | true => rw [eq_of_beq hb] at hl2; exact absurd hl2 (by decide)
      rw [stripMarks_cons_none g c0 _ hm0,
        stripMarks_cons_none g c1 _ (markMatchAt_head_ne g c1 _ hne1),
        stripMarks_cons_none g c2 _ (markMatchAt_head_ne g c2 _ hne2)]
      simp only [show "</b".toList = ['<', '/', 'b'] from rfl, ciPrefix,
        Bool.and_eq_true]
      exact ⟨h0, h1, h2, trivial⟩

theorem mark_shape (g : Char) (S : List Char) :
    mark_html g ++ '\n' :: S =
      '<' :: 'p' :: (markA ++ g :: ('<' :: '/' :: 'p' :: '>' :: '\n' :: S)) := rfl

theorem markMatchAt_mark_other (g g' : Char) (S : List Char)
    (hg : isPySpace g = false) (hne : ciEq g' g = false) :
    markMatchAt g' (mark_html g ++ '\n' :: S) = none := by
  rw [mark_shape]
  simp only [markMatchAt]
  rw [if_pos (by decide : ('<' == '<' && ciEq 'p' 'p') = true),
    firstGtIdx_append markA _ 28 (by decide)]
  simp only [Option.some_bind]
  rw [List.take_append_of_le_length (by decide : 28 ≤ markA.length),
    if_pos (by decide : styleScan (markA.take 28) = true),
    show (28 + 1 : Nat) = markA.length from rfl, List.drop_left]
  simp only [tailEval]
  rw [show runLen isPySpace (g :: '<' :: '/' :: 'p' :: '>' :: '\n' :: S) = 0 from by
    simp [runLen, hg]]
  simp only [List.drop_zero, tailRest]
  rw [hne, if_neg Bool.false_ne_true]
  rfl

theorem markMatchAt_mark_self (g g' : Char) (S : List Char)
    (hg : isPySpace g = false) (heq : ciEq g' g = true) (hS0 : runLen isPySpace S = 0) :
    markMatchAt g' (mark_html g ++ '\n' :: S) = some 37 := by
  rw [mark_shape]
  simp only [markMatchAt]
  rw [if_pos (by decide : ('<' == '<' && ciEq 'p' 'p') = true),
    firstGtIdx_append markA _ 28 (by decide)]
  simp only [Option.some_bind]
  rw [List.take_append_of_le_length (by decide : 28 ≤ markA.length),
    if_pos (by decide : styleScan (markA.take 28) = true),
    show (28 + 1 : Nat) = markA.length from rfl, List.drop_left]
  simp only [tailEval]
  rw [show runLen isPySpace (g :: '<' :: '/' :: 'p' :: '>' :: '\n' :: S) = 0 from by
    simp [runLen, hg]]
  simp only [List.drop_zero, tailRest]
  rw [heq, if_pos rfl]
  rw [show runLen isPySpace ('<' :: '/' :: 'p' :: '>' :: '\n' :: S) = 0 from by
    simp [runLen, show isPySpace '<' = false from by decide]]
  simp only [List.drop_zero]
  rw [if_pos (show ciPrefix "</p>".toList ('<' :: '/' :: 'p' :: '>' :: '\n' :: S) = true
    from rfl)]
  simp only [List.drop_succ_cons, List.drop_zero]
  rw [show runLen isPySpace ('\n' :: S) = 1 from by
    simp [runLen, hS0, show isPySpace '\n' = true from by decide]]
  rfl

theorem markMatchAt_mark_inner (g g' : Char) (S : List Char) :
    ∀ k, 1 ≤ k → k < 37 → markMatchAt g' ((mark_html g ++ '\n' :: S).drop k) = none := by
  intro k h1 h2
  rw [mark_shape]
  interval_cases k
  all_goals first
  | rfl
  | (exact markMatchAt_head_ne g' _ _ (by decide))
  | (rw [show List.drop 31
        ('<' :: 'p' :: (markA ++ g :: '<' :: '/' :: 'p' :: '>' :: '\n' :: S)) =
        g :: '<' :: '/' :: 'p' :: '>' :: '\n' :: S from rfl]
     simp [markMatchAt, show ciEq 'p' '<' = false from by decide])

theorem stripMarks_mark_other (g g' : Char) (S : List Char)
    (hg : isPySpace g = false) (hne : ciEq g' g = false) :
    stripMarks g' (mark_html g ++ '\n' :: S) = mark_html g ++ '\n' :: stripMarks g' S := by
  have hsp : mark_html g ++ '\n' :: S = (mark_html g ++ ['\n']) ++ S := by simp
  have hlen : (mark_html g ++ ['\n']).length = 37 := rfl
  rw [hsp, stripMarks_append_none g' (mark_html g ++ ['\n']) S ?_]
  · simp
  · intro i hi
    rw [← hsp]
    rcases Nat.eq_zero_or_pos i with h0 | hpos
    · subst h0
      simpa using markMatchAt_mark_other g g' S hg hne
    · have h37 : i < 37 := by rw [hlen] at hi; exact hi
      exact markMatchAt_mark_inner g g' S i hpos h37

theorem stripMarks_mark_self (g g' : Char) (S : List Char)
    (hg : isPySpace g = false) (heq : ciEq g' g = true) (hS0 : runLen isPySpace S = 0) :
    stripMarks g' (mark_html g ++ '\n' :: S) = stripMarks g' S := by
  have hm := markMatchAt_mark_self g g' S hg heq hS0
  rw [mark_shape] at hm ⊢
  rw [stripMarks_cons_some g' '<' _ 37 hm,
    show List.drop (37 - 1) ('p' :: (markA ++ g :: '<' :: '/' :: 'p' :: '>' :: '\n' :: S)) =
      S from rfl]

theorem stripAll_cons (g : Char) (gs : List Char) (X : List Char) :
    stripAll (g :: gs) X = stripAll gs (stripMarks g X) := rfl

theorem stripAll_sim (g : Char) (hg : isPySpace g = false) (hglt : ciEq g '<' = false)
    (P : List Char) (hcl : closedPs P = true) :
    ∀ (gs S : List Char),
      (∀ g' ∈ gs, ciEq g' '<' = false) →
      ciPrefix "</b".toList S = true →
      (∀ g' ∈ gs, ∀ i, i < P.length → markMatchAt g' ((P ++ S).drop i) = none) →
      stripAll gs (P ++ S) = P ++ stripAll gs S ∧
      stripAll gs (P ++ mark_html g ++ '\n' :: S) =
        P ++ (if gs.any (fun g' => ciEq g' g) then [] else mark_html g ++ ['\n']) ++
          stripAll gs S
  | [], S, _, _, _ => by
      constructor
      · rfl
      · simp [stripAll]
  | g' :: gs', S, hlt, hS, hnone => by
      have hlt' : ∀ g'' ∈ gs', ciEq g'' '<' = false :=
        fun g'' h => hlt g'' (List.mem_cons_of_mem _ h)
      have hg'lt : ciEq g' '<' = false := hlt g' (List.mem_cons_self _ _)
      have hsS : suffOk S = true := suffOk_of_suffB S hS
      have hS' : ciPrefix "</b".toList (stripMarks g' S) = true := stripMarks_suffB g' S hS
      have hsS' : suffOk (stripMarks g' S) = true := suffOk_of_suffB _ hS'
      have hn0 : ∀ i, i < P.length → markMatchAt g' ((P ++ S).drop i) = none :=
        hnone g' (List.mem_cons_self _ _)
      have horig : stripMarks g' (P ++ S) = P ++ stripMarks g' S :=
        stripMarks_append_none g' P S hn0
      have hnone' : ∀ g'' ∈ gs', ∀ i, i < P.length →
          markMatchAt g'' ((P ++ stripMarks g' S).drop i) = none := by
        intro g'' hmem i hi
        rw [transfer_at g'' (hlt' g'' hmem) P (stripMarks g' S) S hcl hsS' hsS i hi]
        exact hnone g'' (List.mem_cons_of_mem _ hmem) i hi
      have hS0 : runLen isPySpace S = 0 := by
        obtain ⟨c, cs, he, -, hsp, -⟩ := suffOk_dest S hsS
        rw [he]; simp [runLen, hsp]
      have hsM : suffOk (mark_html g ++ '\n' :: S) = true := rfl
      have hmrk : stripMarks g' (P ++ (mark_html g ++ '\n' :: S)) =
          P ++ stripMarks g' (mark_html g ++ '\n' :: S) := by
        refine stripMarks_append_none g' P _ ?_
        intro i hi
        rw [transfer_at g' hg'lt P (mark_html g ++ '\n' :: S) S hcl hsM hsS i hi]
        exact hn0 i hi
      obtain ⟨IH1, IH2⟩ :=
        stripAll_sim g hg hglt P hcl gs' (stripMarks g' S) hlt' hS' hnone'
      constructor
      · rw [stripAll_cons, horig, IH1, stripAll_cons]
      · rw [stripAll_cons,
          show P ++ mark_html g ++ '\n' :: S = P ++ (mark_html g ++ '\n' :: S) from by
            simp [List.append_assoc],
          hmrk]
        cases hcase : ciEq g' g with
        | true =>
            rw [stripMarks_mark_self g g' S hg hcase hS0, IH1, stripAll_cons]
            simp [List.any_cons, hcase]
        | false =>
            rw [stripMarks_mark_other g g' S hg hcase,
              show P ++ (mark_html g ++ '\n' :: stripMarks g' S) =
                P ++ mark_html g ++ '\n' :: stripMarks g' S from by
                simp [List.append_assoc],
              IH2, stripAll_cons]
            simp [List.any_cons, hcase]

theorem glyph_facts : ∀ g ∈ markGlyphs, isPySpace g = false ∧ ciEq g '<' = false := by
  decide

theorem suffB_of_body (s : List Char) (j : Nat) (h : ciPrefix bodyPat (s.drop j) = true) :
    ciPrefix "</b".toList (s.drop j) = true := by
  have hsp : bodyPat = "</b".toList ++ "ody>".toList := rfl
  rw [hsp] at h
  exact ciPrefix_of_append _ _ _ h

theorem count_characters_stripAll (X : List Char) :
    count_characters X true = (stripAll markGlyphs X).length := rfl

theorem count_characters_insert (s : List Char) (g : Char)
    (hmem : g ∈ markGlyphs) (hclean : cleanDoc s) :
    count_characters (insert_watermark s g).1 true = count_characters s true := by
  obtain ⟨hg, hglt⟩ := glyph_facts g hmem
  have hgs : ∀ g' ∈ markGlyphs, ciEq g' '<' = false := fun g' h => (glyph_facts g' h).2
  have hany : markGlyphs.any (fun g' => ciEq g' g) = true :=
    List.any_eq_true.mpr ⟨g, hmem, by simp [ciEq]⟩
  have main : ∀ j, insertionPoint s = some j →
      count_characters (s.take j ++ mark_html g ++ ['\n'] ++ s.drop j) true =
      count_characters s true := by
    intro j hIP
    have hca : cleanAt s j := by
      have hc := hclean
      unfold cleanDoc at hc
      rw [hIP] at hc
      exact hc
    obtain ⟨hcl, hnm⟩ := hca
    have hbody : ciPrefix bodyPat (s.drop j) = true := by
      unfold insertionPoint at hIP
      cases hfd : findDivBody s with
      | some j0 =>
          rw [hfd] at hIP
          have hIP' : some j0 = some j := hIP
          injection hIP' with hjj
          subst hjj
          obtain ⟨i, hAt, -, hj⟩ := (findDivBody_spec s j0).mp hfd
          rw [hj]
          exact hAt.2
      | none =>
          rw [hfd] at hIP
          have hfb : findBody s = some j := hIP
          obtain ⟨hb, -⟩ := (findBody_spec s j).mp hfb
          exact hb
    have hsuffB : ciPrefix "</b".toList (s.drop j) = true := suffB_of_body s j hbody
    have hjle : j ≤ s.length := by
      have h7 := ciPrefix_length_le bodyPat (s.drop j) hbody
      rw [List.length_drop] at h7
      have hb7 : bodyPat.length = 7 := rfl
      omega
    have hsplit : s = s.take j ++ s.drop j := (List.take_append_drop j s).symm
    have hlenP : (s.take j).length = j := by
      rw [List.length_take]
      omega
    have hnm' : ∀ g' ∈ markGlyphs, ∀ i, i < (s.take j).length →
        markMatchAt g' ((s.take j ++ s.drop j).drop i) = none := by
      intro g' hg' i hi
      rw [← hsplit]
      exact hnm g' hg' i (by rw [hlenP] at hi; exact hi)
    obtain ⟨Hor, Hmk⟩ :=
      stripAll_sim g hg hglt (s.take j) hcl markGlyphs (s.drop j) hgs hsuffB hnm'
    rw [count_characters_stripAll, count_characters_stripAll,
      show s.take j ++ mark_html g ++ ['\n'] ++ s.drop j =
        s.take j ++ mark_html g ++ '\n' :: s.drop j from by simp]
    rw [Hmk, hany]
    conv_rhs => rw [hsplit]
    rw [Hor]
    simp
  unfold insert_watermark
  cases hfd : findDivBody s with
  | some j =>
      have hIP : insertionPoint s = some j := by unfold insertionPoint; rw [hfd]
      simpa using main j hIP
  | none =>
      cases hfb : findBody s with
      | some i =>
          have hIP : insertionPoint s = some i := by
            unfold insertionPoint; rw [hfd]; exact hfb
          simpa [hfb] using main i hIP
      | none => simp [hfb]

theorem count_tree_mark (g : Char) (hmem : g ∈ markGlyphs) :
    ∀ tree : List (List Char × Bool), (∀ fd ∈ tree, fd.2 = true → cleanDoc fd.1) →
      count_tree (markTree tree g) true = count_tree (tree.map Prod.fst) true
  | [], _ => rfl
  | fd :: tree', hclean => by
      have hhead : count_characters (if fd.2 then (insert_watermark fd.1 g).1 else fd.1) true
          = count_characters fd.1 true := by
        cases hf2 : fd.2 with
        | false => simp
        | true =>
            simp only [if_true]
            exact count_characters_insert fd.1 g hmem
              (hclean fd (List.mem_cons_self _ _) hf2)
      have htail := count_tree_mark g hmem tree'
        (fun fd' h hf => hclean fd' (List.mem_cons_of_mem _ h) hf)
      simp only [markTree, count_tree, List.map_cons, List.sum_cons] at htail ⊢
      rw [hhead]
      omega

/-- C1 (amended): the marker-insensitive character count is preserved by
marking provided each marked document is clean at its insertion point:
every `<p` opened before the insertion point is closed before it, and no
platform glyph's strip pattern already matches anywhere before it.  (The
original unconditional claim is refuted by `C1_count_counterexample`,
where an unclosed styled `<p` just before `</body>` merges with the
inserted marker block into one larger strip-pattern match.) -/
theorem C1_count_invariant (tree : List (List Char × Bool)) (platform : String) (g : Char)
    (hplat : (platform, g) ∈ PLATFORM_MARKS)
    (hclean : ∀ fd ∈ tree, fd.2 = true → cleanDoc fd.1) :
    count_tree (markTree tree g) true = count_tree (tree.map Prod.fst) true :=
  count_tree_mark g (List.mem_map.mpr ⟨(platform, g), hplat, rfl⟩) tree hclean

/-- Witness for C1: a concrete well-formed document, marked by the amazon
platform, with both hypotheses discharged by evaluation. -/
theorem C1_count_invariant_witness :
    ("amazon", '▲') ∈ PLATFORM_MARKS ∧
    (∀ fd ∈ [(("<p>x</p></div></body>".toList : List Char), true)],
      fd.2 = true → cleanDoc fd.1) ∧
    count_tree (markTree [(("<p>x</p></div></body>".toList : List Char), true)] '▲') true =
      count_tree ([(("<p>x</p></div></body>".toList : List Char), true)].map Prod.fst) true :=
  ⟨by decide, by decide,
    C1_count_invariant [(("<p>x</p></div></body>".toList : List Char), true)] "amazon" '▲'
      (by decide) (by decide)⟩

end Plataformas
